import Mathlib

/-!
# owners-check: the OWNERS filter validation

A shallow embedding of `checkFilters` (`pkg/owners-check/filters.go`) and of the
walk of `main` (`cmd/owners-check/main.go`), which repeats it line for line with
other log fields.

* The file system is a value: a directory is the list of entries `os.ReadDir`
  returns for it (with the error it returned, if any); a non-directory entry
  carries what `os.ReadFile` followed by `yaml.Unmarshal` makes of it.
* Paths are strings. `Clean`, `Join`, `Dir`, `TrimPrefix`, `Contains` model the
  Unix behaviour of the functions of `path/filepath` and `strings` the program
  calls.
* `regexp.MustCompile` is a parameter `compile`; a failure to compile is a Go
  panic, which the result type keeps apart from a returned error.
* The log calls of the program are kept as a trace.
-/

namespace OwnersCheck

/-! ## Strings and paths -/

/-- Model of `strings.Contains(s, substr)` on lists of characters. -/
def containsChars : List Char → List Char → Bool
  | [], sub => sub.isEmpty
  | c :: s, sub => sub.isPrefixOf (c :: s) || containsChars s sub

/-- Model of `strings.Contains`. -/
def Contains (s substr : String) : Bool :=
  containsChars s.data substr.data

/-- Model of `strings.TrimPrefix` on lists of characters. -/
def trimChars (s pre : List Char) : List Char :=
  if pre.isPrefixOf s then s.drop pre.length else s

/-- Model of `strings.TrimPrefix(s, pre)`: `s` without the leading `pre`, or `s`
itself when it does not start with `pre`. -/
def TrimPrefix (s pre : String) : String :=
  String.mk (trimChars s.data pre.data)

/-- The pieces of a path between its slashes (`strings.Split(path, "/")`). -/
def splitSlash : List Char → List (List Char)
  | [] => [[]]
  | c :: cs =>
    if c = '/' then [] :: splitSlash cs
    else
      match splitSlash cs with
      | [] => [[c]]
      | seg :: rest => (c :: seg) :: rest

/-- One step of the loop of `filepath.Clean`, on the stack of path elements
written so far (last element first): an empty element and `.` are dropped, `..`
removes the last element unless there is none or it is a `..` itself, in which
case a rooted path drops it and a relative path keeps it. -/
def cleanStep (rooted : Bool) (stack : List (List Char)) (seg : List Char) : List (List Char) :=
  if seg = [] ∨ seg = ['.'] then stack
  else if seg = ['.', '.'] then
    match stack with
    | [] => if rooted then [] else [seg]
    | top :: below => if top = ['.', '.'] then seg :: top :: below else below
  else seg :: stack

/-- The elements `filepath.Clean` keeps, first element first. -/
def cleanSegs (rooted : Bool) (segs : List (List Char)) : List (List Char) :=
  (segs.foldl (cleanStep rooted) []).reverse

/-- The elements of a path joined by slashes. -/
def joinSegs : List (List Char) → List Char
  | [] => []
  | [seg] => seg
  | seg :: next :: rest => seg ++ '/' :: joinSegs (next :: rest)

/-- Model of `filepath.Clean` on lists of characters (Unix: the separator is
`/`, there is no volume name). -/
def cleanChars (path : List Char) : List Char :=
  match path with
  | '/' :: _ => '/' :: joinSegs (cleanSegs true (splitSlash path))
  | _ =>
    match cleanSegs false (splitSlash path) with
    | [] => ['.']
    | segs => joinSegs segs

/-- Model of `filepath.Clean`. -/
def Clean (path : String) : String :=
  String.mk (cleanChars path.data)

/-- Model of `filepath.Join(a, b)`: the first non-empty argument and what
follows it are joined by a slash and cleaned; the result is empty when both
arguments are. -/
def Join (a b : String) : String :=
  if a ≠ "" then Clean (a ++ "/" ++ b)
  else if b ≠ "" then Clean b
  else ""

/-- The part of a path up to and including its last slash. -/
def dirChars (path : List Char) : List Char :=
  (path.reverse.dropWhile (fun c => c != '/')).reverse

/-- Model of `filepath.Dir`: the path without its last element, cleaned. -/
def Dir (path : String) : String :=
  Clean (String.mk (dirChars path.data))

/-- Model of the base name `os.Lstat` reports for a path: trailing slashes are
removed (the first character stays), then everything up to the last slash that
stands before the final character. -/
def baseChars (name : List Char) : List Char :=
  match name with
  | [] => []
  | c :: rest =>
    match (c :: (rest.reverse.dropWhile (fun x => x == '/')).reverse).reverse with
    | [] => []
    | last :: before => (last :: before.takeWhile (fun x => x != '/')).reverse

/-- Model of `FileInfo.Name()` of `os.Lstat(name)`. -/
def Base (name : String) : String :=
  String.mk (baseChars name.data)

/-! ## The file system -/

/-- What `os.ReadFile` followed by `yaml.Unmarshal` into `*Owners` makes of a
non-directory entry. -/
inductive FileData where
  /-- The call `os.ReadFile` fails. -/
  | unreadable (cause : String)
  /-- The call `yaml.Unmarshal` fails. -/
  | malformed (cause : String)
  /-- The document is empty: `owners` stays `nil`. -/
  | noDocument
  /-- A document; `filters` lists the keys of `owners.Filters` in the order the
  `range` statement of this run yields them (empty when the key `filters` is
  absent). The values of the map (`Filter`: reviewers, approvers, labels) are
  never read by the program and are left out. -/
  | owners (filters : List String)
  deriving DecidableEq, Repr

/-- The entries of a directory in the order `os.ReadDir` returns them. A
directory entry carries the error of its own `os.ReadDir`, if any, and the
entries that call returned. -/
inductive Entries where
  | nil
  | file (name : String) (data : FileData) (rest : Entries)
  | dir (name : String) (readErr : Option String) (sub : Entries) (rest : Entries)
  deriving DecidableEq, Repr

/-- A directory as `os.ReadDir` sees it. -/
structure Directory where
  readErr : Option String
  entries : Entries
  deriving DecidableEq, Repr

/-- The `fs.DirEntry` handed to a walk function. -/
structure DirEntry where
  name : String
  isDir : Bool
  deriving DecidableEq, Repr

/-- What the file system holds at a path the walk visits: the outcome of reading
the entry as an OWNERS document, and the directory that contains the entry
(the one `filepath.Dir(path)` names). -/
structure Located where
  data : FileData
  parent : Directory
  deriving DecidableEq, Repr

/-! ## Log records, errors and results -/

inductive Level where
  | debug
  | info
  deriving DecidableEq, Repr

inductive Message where
  | checkingOwnersFile
  | doesNotHaveFilters
  | checkMatch
  | filesMatched (matchingFiles : List String)
  deriving DecidableEq, Repr

/-- One call of the logger: level, the fields added with `WithField(s)`, message.
The fields `log()` puts on every record (`robot`, `directory`) are left out. -/
structure LogEntry where
  level : Level
  fields : List (String × String)
  message : Message
  deriving DecidableEq, Repr

abbrev Log := List LogEntry

/-- The non-nil errors a walk function returns. -/
inductive Err where
  /-- The `*fs.PathError` of `os.ReadFile(path)`. -/
  | readFile (path : String) (cause : String)
  /-- The error of `yaml.Unmarshal`. -/
  | unmarshal (cause : String)
  /-- The error `fmt.Errorf("no files matched filter %s", fileFilterExpression)`. -/
  | noMatch (fileFilterExpression : String)
  deriving DecidableEq, Repr

/-- The value `regexp.MustCompile(str)` panics with: it quotes `str` and the
error of `regexp.Compile`. -/
structure CompilePanic where
  str : String
  cause : String
  deriving DecidableEq, Repr

/-- How a piece of Go code ends, with its state at that point: it returns a nil
error, returns a non-nil error, or panics. -/
inductive Res (σ : Type) where
  | ok (s : σ)
  | error (s : σ) (e : Err)
  | panic (s : σ) (p : CompilePanic)
  deriving DecidableEq, Repr

/-- Sequencing: go on only after a nil error. -/
def Res.andThen {σ : Type} (r : Res σ) (k : σ → Res σ) : Res σ :=
  match r with
  | .ok s => k s
  | .error s e => .error s e
  | .panic s p => .panic s p

/-- The state a result carries. -/
def Res.state {σ : Type} : Res σ → σ
  | .ok s => s
  | .error s _ => s
  | .panic s _ => s

/-! ## filepath.WalkDir -/

/-- A `fs.WalkDirFunc` over a state `σ`: path, entry, the error argument. The
walk functions of this program never return `filepath.SkipDir` or
`filepath.SkipAll`, so the result type has no such case. -/
abbrev WalkDirFunc (σ : Type) := String → DirEntry → Located → Option String → σ → Res σ

/-- The second call `walkDir` makes on a directory whose `os.ReadDir` failed. -/
def reportReadDir {σ : Type} (fn : WalkDirFunc σ) (path : String) (d : DirEntry) (loc : Located)
    (readErr : Option String) (s : σ) : Res σ :=
  match readErr with
  | none => .ok s
  | some e => fn path d loc (some e) s

/-- The loop of `walkDir` over the entries `dirs` of the directory at `path`:
each entry is visited at `Join(path, name)`; a directory is reported, read,
reported again if reading failed, and its entries walked; the first non-nil
error (or a panic) ends the walk. `here` is the directory being listed. -/
def walkEntries {σ : Type} (fn : WalkDirFunc σ) (path : String) (here : Directory) :
    Entries → σ → Res σ
  | .nil, s => .ok s
  | .file name data rest, s =>
    (fn (Join path name) ⟨name, false⟩ ⟨data, here⟩ none s).andThen fun s1 =>
    walkEntries fn path here rest s1
  | .dir name readErr sub rest, s =>
    (fn (Join path name) ⟨name, true⟩ ⟨.unreadable "is a directory", here⟩ none s).andThen fun s1 =>
    (reportReadDir fn (Join path name) ⟨name, true⟩ ⟨.unreadable "is a directory", here⟩
      readErr s1).andThen fun s2 =>
    (walkEntries fn (Join path name) ⟨readErr, sub⟩ sub s2).andThen fun s3 =>
    walkEntries fn path here rest s3

/-- Model of `filepath.WalkDir(root, fn)` for a root that `os.Lstat` finds to be
the directory `rootDir`: the root is visited under the path `root` as given (not
cleaned), then its entries. For a directory the walk functions of this program
look at neither the content nor the containing directory of `Located`. -/
def WalkDir {σ : Type} (fn : WalkDirFunc σ) (root : String) (rootDir : Directory) (s : σ) :
    Res σ :=
  (fn root ⟨Base root, true⟩ ⟨.unreadable "is a directory", rootDir⟩ none s).andThen fun s1 =>
  (reportReadDir fn root ⟨Base root, true⟩ ⟨.unreadable "is a directory", rootDir⟩
    rootDir.readErr s1).andThen fun s2 =>
  walkEntries fn root rootDir rootDir.entries s2

/-! ## The program -/

/-- The two copies of the walk: `checkFilters` of `pkg/owners-check/filters.go`
and `main` of `cmd/owners-check/main.go`. They differ in the log fields only. -/
inductive Source where
  | pkg
  | cmd
  deriving DecidableEq, Repr

/-- A compiled regular expression: its `MatchString`. -/
abbrev Regexp := String → Bool

/-- The regular-expression library: `regexp.Compile`. -/
abbrev Compile := String → Except String Regexp

/-- The record `Debug("check match")`: `filters.go` logs the fields `pathDir`
and `regex`, `main.go` the fields `checkPath` and `regex`. -/
def checkMatchEntry (src : Source) (pathDir checkPath fileFilterExpression : String) : LogEntry :=
  match src with
  | .pkg => ⟨.debug, [("pathDir", pathDir), ("regex", fileFilterExpression)], .checkMatch⟩
  | .cmd => ⟨.debug, [("checkPath", checkPath), ("regex", fileFilterExpression)], .checkMatch⟩

/-- The record `Infof("files matched: %v", matchingFiles)`. -/
def filesMatchedEntry (src : Source) (pathDir fileFilterExpression : String)
    (matchingFiles : List String) : LogEntry :=
  match src with
  | .pkg =>
    ⟨.info, [("pathDir", pathDir), ("regex", fileFilterExpression)], .filesMatched matchingFiles⟩
  | .cmd => ⟨.info, [("filter", fileFilterExpression)], .filesMatched matchingFiles⟩

/-- The state of the inner walk: the log and `matchingFiles`. -/
structure Scan where
  log : Log
  matchingFiles : List String
  deriving DecidableEq, Repr

/-- The inner walk function (`filters.go` lines 126 to 133, `main.go` lines 98 to
108): the path relative to `pathDir` is logged, and appended to `matchingFiles`
when the expression matches it. The entry and the error argument are not looked
at; the result is nil. -/
def matchFn (src : Source) (filterRegex : Regexp) (pathDir fileFilterExpression : String) :
    WalkDirFunc Scan :=
  fun innerpath _innerd _loc _innererr s =>
    let checkPath := TrimPrefix innerpath pathDir
    let log := s.log ++ [checkMatchEntry src pathDir checkPath fileFilterExpression]
    if filterRegex checkPath then .ok ⟨log, s.matchingFiles ++ [checkPath]⟩
    else .ok ⟨log, s.matchingFiles⟩

/-- What follows the inner walk (`filters.go` lines 134 to 140): no match is an
error; otherwise the matches are logged, and an error of the walk is returned. -/
def afterScan (src : Source) (pathDir fileFilterExpression : String) : Res Scan → Res Log
  | .panic s p => .panic s.log p
  | .ok s =>
    if s.matchingFiles.length = 0 then .error s.log (.noMatch fileFilterExpression)
    else .ok (s.log ++ [filesMatchedEntry src pathDir fileFilterExpression s.matchingFiles])
  | .error s e =>
    if s.matchingFiles.length = 0 then .error s.log (.noMatch fileFilterExpression)
    else .error (s.log ++ [filesMatchedEntry src pathDir fileFilterExpression s.matchingFiles]) e

/-- The loop `for fileFilterExpression := range owners.Filters` (`filters.go`
lines 115 to 141) over the keys in the order of this run. -/
def rangeFilters (src : Source) (compile : Compile) (path : String) (parent : Directory) :
    List String → Log → Res Log
  | [], log => .ok log
  | fileFilterExpression :: rest, log =>
    if fileFilterExpression = ".*" then rangeFilters src compile path parent rest log
    else
      match compile fileFilterExpression with
      | .error cause => .panic log ⟨fileFilterExpression, cause⟩
      | .ok filterRegex =>
        let pathDir := Dir path ++ "/"
        (afterScan src pathDir fileFilterExpression
          (WalkDir (matchFn src filterRegex pathDir fileFilterExpression) pathDir parent
            ⟨log, []⟩)).andThen fun log1 =>
        rangeFilters src compile path parent rest log1

/-- The body of the outer walk function for an entry that passed its guard
(`filters.go` lines 101 to 142): the file is read and decoded, and its filter
expressions are checked. -/
def checkOwnersFile (src : Source) (compile : Compile) (path : String) (loc : Located)
    (log : Log) : Res Log :=
  let log1 := log ++ [⟨.debug, [("file", path)], .checkingOwnersFile⟩]
  match loc.data with
  | .unreadable cause => .error log1 (.readFile path cause)
  | .malformed cause => .error log1 (.unmarshal cause)
  | .noDocument => .ok (log1 ++ [⟨.info, [("file", path)], .doesNotHaveFilters⟩])
  | .owners filters => rangeFilters src compile path loc.parent filters log1

/-- The outer walk function (`filters.go` lines 97 to 143, `main.go` lines 73 to
118): directories, entries not named `OWNERS` and paths that contain `/vendor/`
are passed over. The error argument is not looked at. -/
def ownersFn (src : Source) (compile : Compile) : WalkDirFunc Log :=
  fun path d loc _err log =>
    if d.isDir || d.name != "OWNERS" || Contains path "/vendor/" then .ok log
    else checkOwnersFile src compile path loc log

/-- What `os.Stat(directory)` finds: nothing, something that is not a directory,
or a directory. -/
inductive Stat where
  | notExist
  | notDir
  | isDir (d : Directory)
  deriving DecidableEq, Repr

/-- The calls of `Fatal` and `Fatalf` (they exit with status 1). -/
inductive Fatal where
  | directoryIsRequired
  | doesNotExistOrIsNotADirectory
  | failedToCheckOwners (err : Err)
  deriving DecidableEq, Repr

/-- How a run ends, with the log written until then: normally (exit status 0),
in a call of `Fatal`, or in the panic of `regexp.MustCompile`. -/
inductive Outcome where
  | success (log : Log)
  | fatal (log : Log) (f : Fatal)
  | panic (log : Log) (p : CompilePanic)
  deriving DecidableEq, Repr

/-- Model of `checkFilters` (`filters.go` lines 88 to 147) and of the body of
`main` after flag parsing (`main.go` lines 65 to 121). -/
def checkFilters (src : Source) (compile : Compile) (directory : String) (stat : Stat) : Outcome :=
  if directory = "" then .fatal [] .directoryIsRequired
  else
    match stat with
    | .notExist => .fatal [] .doesNotExistOrIsNotADirectory
    | .notDir => .fatal [] .doesNotExistOrIsNotADirectory
    | .isDir root =>
      match WalkDir (ownersFn src compile) directory root [] with
      | .ok log => .success log
      | .error log err => .fatal log (.failedToCheckOwners err)
      | .panic log p => .panic log p

/-! ## A regular-expression engine for the examples

The theorems below hold for every `compile`. The examples need one that can be
evaluated: `sampleCompile` reads the fragment of the RE2 syntax made of literal
characters, `.`, `^`, `$`, `*`, `+`, `?`, `|` and groups, and matches by
derivatives, unanchored as `MatchString` does. -/

inductive RE where
  | none
  | eps
  | chr (c : Char)
  | any
  | bol
  | eol
  | seq (a b : RE)
  | alt (a b : RE)
  | star (a : RE)
  deriving DecidableEq, Repr

/-- Whether the expression matches the empty string at a position that is
(`atStart`) the beginning and (`atEnd`) the end of the text. -/
def RE.nullable (atStart atEnd : Bool) : RE → Bool
  | .none => false
  | .eps => true
  | .chr _ => false
  | .any => false
  | .bol => atStart
  | .eol => atEnd
  | .seq a b => a.nullable atStart atEnd && b.nullable atStart atEnd
  | .alt a b => a.nullable atStart atEnd || b.nullable atStart atEnd
  | .star _ => true

/-- The derivative by the character `c`, read at a position that is (`atStart`)
the beginning of the text. -/
def RE.deriv (atStart : Bool) (c : Char) : RE → RE
  | .none => .none
  | .eps => .none
  | .chr d => if c = d then .eps else .none
  | .any => if c = '\n' then .none else .eps
  | .bol => .none
  | .eol => .none
  | .seq a b =>
    if a.nullable atStart false then .alt (.seq (a.deriv atStart c) b) (b.deriv atStart c)
    else .seq (a.deriv atStart c) b
  | .alt a b => .alt (a.deriv atStart c) (b.deriv atStart c)
  | .star a => .seq (a.deriv atStart c) (.star a)

/-- Whether a match starts at the head of `s`. -/
def RE.matchesHere (r : RE) (atStart : Bool) : List Char → Bool
  | [] => r.nullable atStart true
  | c :: cs => r.nullable atStart false || (r.deriv atStart c).matchesHere false cs

/-- Whether a match starts somewhere in `s`. -/
def RE.search (r : RE) (atStart : Bool) : List Char → Bool
  | [] => r.matchesHere atStart []
  | c :: cs => r.matchesHere atStart (c :: cs) || r.search false cs

/-- A group being read: the finished alternatives, the items of the current
one (last item first), and whether the last item is a repetition. -/
structure Frame where
  alts : List RE
  items : List RE
  repeated : Bool
  deriving DecidableEq, Repr

/-- The concatenation of items given last item first. -/
def concatItems (items : List RE) : RE :=
  items.foldl (fun acc r => RE.seq r acc) RE.eps

/-- The expression a group stands for. -/
def Frame.close (f : Frame) : RE :=
  f.alts.foldl (fun acc r => RE.alt r acc) (concatItems f.items)

/-- The item a repetition operator makes of `r`. -/
def repeatItem (op : Char) (r : RE) : RE :=
  if op = '*' then .star r
  else if op = '+' then .seq r (.star r)
  else .alt r .eps

/-- Reads the expression character by character, with the stack of the groups
that are open (innermost first, below it the frame of the whole expression). -/
def parseChars : List Char → Frame → List Frame → Except String RE
  | [], f, [] => .ok f.close
  | [], _, _ :: _ => .error "missing closing )"
  | c :: cs, f, stack =>
    if c = '(' then parseChars cs ⟨[], [], false⟩ (f :: stack)
    else if c = ')' then
      match stack with
      | [] => .error "unexpected )"
      | outer :: stack1 => parseChars cs ⟨outer.alts, f.close :: outer.items, false⟩ stack1
    else if c = '|' then parseChars cs ⟨concatItems f.items :: f.alts, [], false⟩ stack
    else if c = '*' ∨ c = '+' ∨ c = '?' then
      match f.items with
      | [] => .error "missing argument to repetition operator"
      | r :: items =>
        if f.repeated then .error "invalid nested repetition operator"
        else parseChars cs ⟨f.alts, repeatItem c r :: items, true⟩ stack
    else if c = '[' ∨ c = '\\' ∨ c = '\x7b' then .error "outside the fragment"
    else if c = '.' then parseChars cs ⟨f.alts, .any :: f.items, false⟩ stack
    else if c = '^' then parseChars cs ⟨f.alts, .bol :: f.items, false⟩ stack
    else if c = '$' then parseChars cs ⟨f.alts, .eol :: f.items, false⟩ stack
    else parseChars cs ⟨f.alts, .chr c :: f.items, false⟩ stack

/-- A `regexp.Compile` for the fragment. -/
def sampleCompile : Compile := fun str =>
  match parseChars str.data ⟨[], [], false⟩ [] with
  | .error cause => .error cause
  | .ok r => .ok fun s => r.search true s.data

/-! ## What the walks visit -/

/-- The paths `walkEntries` hands to the walk function, in order: every entry
at `Join(path, name)`, a directory whose `os.ReadDir` failed twice. -/
def visits (path : String) : Entries → List String
  | .nil => []
  | .file name _ rest => Join path name :: visits path rest
  | .dir name readErr sub rest =>
    Join path name :: ((if readErr.isSome then [Join path name] else []) ++
      (visits (Join path name) sub ++ visits path rest))

/-- The paths `WalkDir(root, fn)` hands to the walk function. -/
def rootVisits (root : String) (rootDir : Directory) : List String :=
  root :: ((if rootDir.readErr.isSome then [root] else []) ++ visits root rootDir.entries)

/-- The values `checkPath` takes during the inner walk from `pathDir`. -/
def checkPaths (pathDir : String) (parent : Directory) : List String :=
  (rootVisits pathDir parent).map fun innerpath => TrimPrefix innerpath pathDir

/-- The value of `matchingFiles` after the inner walk for one filter expression
of the OWNERS file at `path`: the MatchSet of the expression. -/
def matchingFiles (src : Source) (filterRegex : Regexp) (path : String) (parent : Directory)
    (fileFilterExpression : String) : List String :=
  (WalkDir (matchFn src filterRegex (Dir path ++ "/") fileFilterExpression) (Dir path ++ "/")
    parent ⟨[], []⟩).state.matchingFiles

/-- The path, relative to a directory, of each entry below it, in the order of
the walk; `pre` is empty or the relative path of the directory of `es` followed
by a slash. -/
def relPathsIn (pre : String) : Entries → List String
  | .nil => []
  | .file name _ rest => (pre ++ name) :: relPathsIn pre rest
  | .dir name _ sub rest =>
    (pre ++ name) :: (relPathsIn (pre ++ name ++ "/") sub ++ relPathsIn pre rest)

/-- The relative paths of the entries of the subtree rooted at a directory: the
directory itself (the empty path), then what lies below it. -/
def relPaths (parent : Directory) : List String :=
  "" :: relPathsIn "" parent.entries

/-- The log records and the matches the inner walk function adds to `s` for a
list of visited paths. -/
def scanOf (src : Source) (filterRegex : Regexp) (pathDir fileFilterExpression : String)
    (s : Scan) (paths : List String) : Scan :=
  ⟨s.log ++ paths.map (fun p => checkMatchEntry src pathDir (TrimPrefix p pathDir)
      fileFilterExpression),
   s.matchingFiles ++ (paths.map fun p => TrimPrefix p pathDir).filter filterRegex⟩

/-! ## The OWNERS files a run validates -/

/-- An OWNERS file the outer walk finds: its path, what reading and decoding it
gives, and the directory that contains it. -/
structure OwnersFile where
  path : String
  data : FileData
  parent : Directory
  deriving DecidableEq, Repr

/-- The entries below the directory at `path` that pass the guard of the outer
walk function (not a directory, named `OWNERS`, no `/vendor/` in the path), in
the order of the walk. -/
def ownersIn (path : String) (here : Directory) : Entries → List OwnersFile
  | .nil => []
  | .file name data rest =>
    (if name != "OWNERS" || Contains (Join path name) "/vendor/" then []
      else [⟨Join path name, data, here⟩]) ++ ownersIn path here rest
  | .dir name readErr sub rest =>
    ownersIn (Join path name) ⟨readErr, sub⟩ sub ++ ownersIn path here rest

/-- The discovered OWNERS files of a run on `directory`. -/
def discovered (directory : String) (root : Directory) : List OwnersFile :=
  ownersIn directory root root.entries

/-- The outer walk function on a discovered OWNERS file. -/
def validateFile (src : Source) (compile : Compile) (f : OwnersFile) (log : Log) : Res Log :=
  checkOwnersFile src compile f.path ⟨f.data, f.parent⟩ log

/-- The discovered files validated one after the other, up to the first that
does not return nil. -/
def validateAll (src : Source) (compile : Compile) : List OwnersFile → Log → Res Log
  | [], log => .ok log
  | f :: fs, log => (validateFile src compile f log).andThen (validateAll src compile fs)

/-- Whether the run ended normally. -/
def Outcome.isSuccess : Outcome → Bool
  | .success _ => true
  | _ => false

/-- The log a run wrote. -/
def Outcome.log : Outcome → Log
  | .success log => log
  | .fatal log _ => log
  | .panic log _ => log

/-- Whether a result is a nil error. -/
def Res.isOk {σ : Type} : Res σ → Bool
  | .ok _ => true
  | _ => false

/-- Whether a filter expression of the OWNERS file at `path` gets through the
loop body: it is the sentinel, or it compiles and its MatchSet is not empty. -/
def filterPasses (src : Source) (compile : Compile) (path : String) (parent : Directory)
    (fileFilterExpression : String) : Bool :=
  fileFilterExpression == ".*" ||
    match compile fileFilterExpression with
    | .error _ => false
    | .ok filterRegex =>
      !(matchingFiles src filterRegex path parent fileFilterExpression).isEmpty

/-- Whether a discovered OWNERS file validates: it is read and decoded, and
each of its filter expressions passes. -/
def fileValidates (src : Source) (compile : Compile) (f : OwnersFile) : Bool :=
  match f.data with
  | .unreadable _ => false
  | .malformed _ => false
  | .noDocument => true
  | .owners filters => filters.all (filterPasses src compile f.path f.parent)

/-- The log records of the inner walk for one filter expression. -/
def checkLog (src : Source) (path : String) (parent : Directory) (fileFilterExpression : String) :
    Log :=
  (checkPaths (Dir path ++ "/") parent).map fun checkPath =>
    checkMatchEntry src (Dir path ++ "/") checkPath fileFilterExpression

/-- The log records a passing filter expression leaves. -/
def filterLog (src : Source) (compile : Compile) (path : String) (parent : Directory)
    (fileFilterExpression : String) : Log :=
  if fileFilterExpression = ".*" then []
  else
    match compile fileFilterExpression with
    | .error _ => []
    | .ok filterRegex =>
      checkLog src path parent fileFilterExpression ++
        [filesMatchedEntry src (Dir path ++ "/") fileFilterExpression
          (matchingFiles src filterRegex path parent fileFilterExpression)]

/-- The log records a validating OWNERS file leaves. -/
def fileLog (src : Source) (compile : Compile) (f : OwnersFile) : Log :=
  ⟨.debug, [("file", f.path)], .checkingOwnersFile⟩ ::
    match f.data with
    | .noDocument => [⟨.info, [("file", f.path)], .doesNotHaveFilters⟩]
    | .owners filters => filters.flatMap (filterLog src compile f.path f.parent)
    | _ => []

/-! ## Trees that differ in what the run does not depend on -/

/-- The same document with the keys of its filter mapping iterated in another
order. -/
inductive FileData.Reordered : FileData → FileData → Prop where
  | same (d : FileData) : FileData.Reordered d d
  | keys {a b : List String} (h : a.Perm b) : FileData.Reordered (.owners a) (.owners b)

/-- The same entries, the filter mappings of the documents iterated in another
order. -/
inductive Entries.Reordered : Entries → Entries → Prop where
  | nil : Entries.Reordered .nil .nil
  | file {name : String} {d d' : FileData} {rest rest' : Entries} :
    FileData.Reordered d d' → Entries.Reordered rest rest' →
    Entries.Reordered (.file name d rest) (.file name d' rest')
  | dir {name : String} {readErr : Option String} {sub sub' rest rest' : Entries} :
    Entries.Reordered sub sub' → Entries.Reordered rest rest' →
    Entries.Reordered (.dir name readErr sub rest) (.dir name readErr sub' rest')

/-- The same directory tree read in two runs that may iterate the filter
mappings in different orders. -/
def Directory.Reordered (a b : Directory) : Prop :=
  a.readErr = b.readErr ∧ a.entries.Reordered b.entries

/-- Two directories in which a walk visits the same paths. -/
def Directory.SameVisits (a b : Directory) : Prop :=
  ∀ root : String, rootVisits root a = rootVisits root b

/-- The tree with the content of every file named `OWNERS` whose walk path
contains `/vendor/` replaced by what `new` gives for that path. -/
def overwriteVendor (new : String → FileData) (path : String) : Entries → Entries
  | .nil => .nil
  | .file name data rest =>
    .file name
      (if name = "OWNERS" ∧ Contains (Join path name) "/vendor/" = true then new (Join path name)
        else data)
      (overwriteVendor new path rest)
  | .dir name readErr sub rest =>
    .dir name readErr (overwriteVendor new (Join path name) sub) (overwriteVendor new path rest)

/-- The records `files matched` of a log: the MatchSets a run reported. -/
def reported (log : Log) : Log :=
  log.filter fun entry =>
    match entry.message with
    | .filesMatched _ => true
    | _ => false

/-- Two discovered files at the same path whose directories are walked alike
and whose documents are related by `R`. -/
def Alike (R : FileData → FileData → Prop) (f f' : OwnersFile) : Prop :=
  f.path = f'.path ∧ R f.data f'.data ∧ f.parent.SameVisits f'.parent

/-- The error a run ended with in its last call of `Fatal`, if it ended so. -/
def Outcome.fatalError : Outcome → Option Fatal
  | .fatal _ f => some f
  | _ => none

/-- The value a run panicked with, if it did. -/
def Outcome.panicValue : Outcome → Option CompilePanic
  | .panic _ p => some p
  | _ => none

/-- The compiled form `sampleCompile` gives for an expression of the fragment
(the expression that matches nothing when it gives none). -/
def sampleRegexp (str : String) : Regexp :=
  match sampleCompile str with
  | .ok filterRegex => filterRegex
  | .error _ => fun _ => false

/-! ## Example trees -/

/-- A file that is not an OWNERS document. -/
def plainFile : FileData := .malformed "not a mapping"

/-- The directory `repo` with `repo/OWNERS` (filter `a/.*.go`) and `repo/a/x.go`. -/
def goTree : Directory :=
  ⟨none, .file "OWNERS" (.owners ["a/.*.go"]) (.dir "a" none (.file "x.go" plainFile .nil) .nil)⟩

/-- As `goTree`, with `repo/a` empty. -/
def emptyDirTree : Directory :=
  ⟨none, .file "OWNERS" (.owners ["a/.*.go"]) (.dir "a" none .nil .nil)⟩

/-- The directory `repo` with `repo/OWNERS` declaring the filter `(unclosed`. -/
def unclosedTree : Directory :=
  ⟨none, .file "OWNERS" (.owners ["(unclosed"]) .nil⟩

/-- The directories `a` and `b`, with an OWNERS file in `a` whose filter `zzz`
matches nothing. -/
def failsInA : Directory :=
  ⟨none, .dir "a" none (.file "OWNERS" (.owners ["zzz"]) .nil) (.dir "b" none .nil .nil)⟩

/-- The directories `a` and `b`, with the same OWNERS file in `b`. -/
def failsInB : Directory :=
  ⟨none, .dir "a" none .nil (.dir "b" none (.file "OWNERS" (.owners ["zzz"]) .nil) .nil)⟩

/-- An OWNERS file with two filters that match nothing, iterated as `yyy`, `zzz`. -/
def twoFailing : Directory :=
  ⟨none, .file "OWNERS" (.owners ["yyy", "zzz"]) .nil⟩

/-- The same OWNERS file iterated as `zzz`, `yyy`. -/
def twoFailingSwapped : Directory :=
  ⟨none, .file "OWNERS" (.owners ["zzz", "yyy"]) .nil⟩

/-- The directory `repo` with an OWNERS file that has no document, one whose
filter mapping is empty, and one that declares only the sentinel. -/
def noFiltersTree : Directory :=
  ⟨none, .file "OWNERS" .noDocument
    (.dir "a" none (.file "OWNERS" (.owners []) .nil)
      (.dir "b" none (.file "OWNERS" (.owners [".*"]) .nil) .nil))⟩

/-- The directory `vendor` itself, holding an OWNERS file whose filter matches
nothing. -/
def vendorRoot : Directory :=
  ⟨none, .file "OWNERS" (.owners ["zzz"]) .nil⟩

/-- An empty directory. -/
def emptyRoot : Directory :=
  ⟨none, .nil⟩

/-- The directory `repo` whose OWNERS file declares the filter `vendor/OWNERS`,
with a file `repo/vendor/OWNERS`. -/
def vendoredOwners : Directory :=
  ⟨none, .file "OWNERS" (.owners ["vendor/OWNERS"])
    (.dir "vendor" none (.file "OWNERS" (.owners ["zzz"]) .nil) .nil)⟩

/-- As `vendoredOwners`, without the file `repo/vendor/OWNERS`. -/
def vendoredOwnersRemoved : Directory :=
  ⟨none, .file "OWNERS" (.owners ["vendor/OWNERS"]) (.dir "vendor" none .nil .nil)⟩

/-- The directory `repo` with `repo/a/x.go`, its OWNERS file iterated as `a`, `x`. -/
def twoPassing : Directory :=
  ⟨none, .file "OWNERS" (.owners ["a", "x"]) (.dir "a" none (.file "x.go" plainFile .nil) .nil)⟩

/-- The same tree with the OWNERS file iterated as `x`, `a`. -/
def twoPassingSwapped : Directory :=
  ⟨none, .file "OWNERS" (.owners ["x", "a"]) (.dir "a" none (.file "x.go" plainFile .nil) .nil)⟩

/-! ## Names and clean paths -/

/-- A path element that can be the name of a directory entry: not empty, not
`.` or `..`, without a slash. -/
def Normal (seg : List Char) : Prop :=
  seg ≠ [] ∧ seg ≠ ['.'] ∧ seg ≠ ['.', '.'] ∧ '/' ∉ seg

instance (seg : List Char) : Decidable (Normal seg) := by
  unfold Normal
  infer_instance

/-- Every entry has a name a directory entry can have. -/
def Entries.wellNamed : Entries → Prop
  | .nil => True
  | .file name _ rest => Normal name.data ∧ rest.wellNamed
  | .dir name _ sub rest => Normal name.data ∧ sub.wellNamed ∧ rest.wellNamed

/-- The call `os.ReadDir` succeeds on every directory among the entries. -/
def Entries.readable : Entries → Prop
  | .nil => True
  | .file _ _ rest => rest.readable
  | .dir _ readErr sub rest => readErr = none ∧ sub.readable ∧ rest.readable

/-- A directory that is read without error, all of whose entries have proper
names. -/
def Directory.wellFormed (d : Directory) : Prop :=
  d.readErr = none ∧ d.entries.readable ∧ d.entries.wellNamed

/-- The text of a cleaned path with the elements `segs`: after a slash when
rooted, and `.` for a relative path with no element. -/
def render (rooted : Bool) (segs : List (List Char)) : List Char :=
  if rooted then '/' :: joinSegs segs
  else
    match segs with
    | [] => ['.']
    | _ => joinSegs segs

/-- Elements that `filepath.Clean` leaves as they are. -/
def StableSegs (rooted : Bool) (segs : List (List Char)) : Prop :=
  segs.foldl (cleanStep rooted) [] = segs.reverse ∧ ∀ s ∈ segs, s ≠ [] ∧ '/' ∉ s

/-- The stacks the loop of `filepath.Clean` builds: proper names above a run of
`..`, which is empty for a rooted path. -/
def GoodStack (rooted : Bool) (stack : List (List Char)) : Prop :=
  ∃ (names : List (List Char)) (k : Nat),
    stack = names ++ List.replicate k ['.', '.'] ∧ (∀ s ∈ names, Normal s) ∧
      (rooted = true → k = 0)

/-- The path `q` under which the inner walk lists the directory that lies
`rs` below the directory with the cleaned path `c` (elements `segs`): the start
`c/` of the walk for that directory itself, the cleaned path below it. -/
def DirAt (c : String) (rooted : Bool) (segs : List (List Char)) (q : String)
    (rs : List (List Char)) : Prop :=
  (rs = [] ∧ q = c ++ "/") ∨ (rs ≠ [] ∧ q.data = render rooted (segs ++ rs))

/-- The relative path of the directory that lies `rs` below the start of the
walk, with a slash after it; empty for the start itself. -/
def relPre (rs : List (List Char)) : String :=
  String.mk
    (match rs with
    | [] => []
    | _ => joinSegs rs ++ ['/'])

/-- The relative paths of the entries below a directory that are not
directories, in the order of the walk. -/
def relFilesIn (pre : String) : Entries → List String
  | .nil => []
  | .file name _ rest => (pre ++ name) :: relFilesIn pre rest
  | .dir name _ sub rest => relFilesIn (pre ++ name ++ "/") sub ++ relFilesIn pre rest

/-- The directory `repo` whose OWNERS file declares the filter `lib`, with the
one file `repo/vendor/lib.go` to match it. -/
def vendoredLib : Directory :=
  ⟨none, .file "OWNERS" (.owners ["lib"])
    (.dir "vendor" none (.file "lib.go" plainFile .nil) .nil)⟩

/-- As `vendoredLib`, with `repo/vendor` empty. -/
def vendoredLibRemoved : Directory :=
  ⟨none, .file "OWNERS" (.owners ["lib"]) (.dir "vendor" none .nil .nil)⟩

/-- A directory with an OWNERS file declaring the filter `^a/`, and `a/x.go`. -/
def anchoredTree : Directory :=
  ⟨none, .file "OWNERS" (.owners ["^a/"]) (.dir "a" none (.file "x.go" plainFile .nil) .nil)⟩

/-- The directory `repo` whose OWNERS file declares the filters `^$` and `sub`,
with the empty directory `repo/sub` and no other entry. -/
def dirOnlyTree : Directory :=
  ⟨none, .file "OWNERS" (.owners ["^$", "sub"]) (.dir "sub" none .nil .nil)⟩

/-- The directory `repo` with the one entry `repo/secret`, a directory that
`os.ReadDir` cannot read. -/
def unreadableSecret : Directory :=
  ⟨none, .dir "secret" (some "permission denied") .nil .nil⟩

/-- A directory that `os.ReadDir` cannot read. -/
def unreadableRoot : Directory :=
  ⟨some "permission denied", .nil⟩

/-- The directory `repo` whose OWNERS file declares the filter `a/.*.go`, with
the directory `repo/a` that `os.ReadDir` cannot read. -/
def unreadableA : Directory :=
  ⟨none, .file "OWNERS" (.owners ["a/.*.go"]) (.dir "a" (some "permission denied") .nil .nil)⟩

/-- The directory `repo` whose OWNERS file declares the filter `a`, with the
directory `repo/a` that `os.ReadDir` cannot read. -/
def unreadableMatch : Directory :=
  ⟨none, .file "OWNERS" (.owners ["a"]) (.dir "a" (some "permission denied") .nil .nil)⟩

/-- How a piece of Go code failed: with a returned error or with a panic. -/
inductive Failure where
  | error (e : Err)
  | panic (p : CompilePanic)
  deriving DecidableEq, Repr

/-- The failure of a result, if it is one. -/
def Res.failure {σ : Type} : Res σ → Option Failure
  | .ok _ => none
  | .error _ e => some (.error e)
  | .panic _ p => some (.panic p)

/-- The failure a filter expression that does not pass ends the loop with: the
panic of `regexp.MustCompile`, or the error `no files matched filter`. -/
def failureOf (compile : Compile) (fileFilterExpression : String) : Failure :=
  match compile fileFilterExpression with
  | .error cause => .panic ⟨fileFilterExpression, cause⟩
  | .ok _ => .error (.noMatch fileFilterExpression)

/-- At most one filter expression of the file does not pass. -/
def OneFailing (src : Source) (compile : Compile) (f : OwnersFile) : Prop :=
  ∀ filters, f.data = .owners filters → ∀ a ∈ filters, ∀ b ∈ filters,
    filterPasses src compile f.path f.parent a = false →
    filterPasses src compile f.path f.parent b = false → a = b

/-! ## The path functions on the tables of the Go tests -/

/-- The model of `filepath.Clean` on the cases of the table of its Go test. -/
theorem Clean_table :
    [("abc", "abc"), ("abc/def", "abc/def"), ("a/b/c", "a/b/c"), (".", "."), ("..", ".."),
      ("../..", "../.."), ("../../abc", "../../abc"), ("/abc", "/abc"), ("/", "/"), ("", "."),
      ("abc/", "abc"), ("abc/def/", "abc/def"), ("a/b/c/", "a/b/c"), ("./", "."), ("../", ".."),
      ("../../", "../.."), ("/abc/", "/abc"), ("abc//def//ghi", "abc/def/ghi"), ("abc//", "abc"),
      ("abc/./def", "abc/def"), ("/./abc/def", "/abc/def"), ("abc/.", "abc"),
      ("abc/def/ghi/../jkl", "abc/def/jkl"), ("abc/def/../ghi/../jkl", "abc/jkl"),
      ("abc/def/..", "abc"), ("abc/def/../..", "."), ("/abc/def/../..", "/"),
      ("abc/def/../../..", ".."), ("/abc/def/../../..", "/"),
      ("abc/def/../../../ghi/jkl/../../../mno", "../../mno"), ("/../abc", "/abc"),
      ("a/../b:/../../c", "../c"), ("abc/./../def", "def"), ("abc//./../def", "def"),
      ("abc/../../././../def", "../../def"), ("//abc", "/abc"), ("///abc", "/abc"),
      ("//abc//", "/abc")].all (fun p => Clean p.1 == p.2) = true := by
  decide

/-- The models of `filepath.Dir` and `filepath.Join` on cases of the tables of
their Go tests, and on the paths the walks of the examples need. -/
theorem Dir_Join_table :
    [("", "."), (".", "."), ("/.", "/"), ("/", "/"), ("/foo", "/"), ("x/", "x"), ("abc", "."),
      ("abc/def", "abc"), ("a/b/.x", "a/b"), ("a/b/c.", "a/b"), ("a/b/c.x", "a/b"),
      ("repo/OWNERS", "repo"), ("OWNERS", "."), ("/OWNERS", "/")].all
        (fun p => Dir p.1 == p.2) = true ∧
    [(("a", "b"), "a/b"), (("a", ""), "a"), (("", "b"), "b"), (("/", "a"), "/a"),
      (("/", "a/b"), "/a/b"), (("/", ""), "/"), (("//", "a"), "/a"), (("/a", "b"), "/a/b"),
      (("a/", "b"), "a/b"), (("a/", ""), "a"), (("", ""), ""), ((".", "OWNERS"), "OWNERS"),
      (("./", "a"), "a"), (("repo/", "a"), "repo/a")].all
        (fun p => Join p.1.1 p.1.2 == p.2) = true := by
  decide

/-! ## Sequencing -/

@[simp] theorem Res.andThen_ok {σ : Type} (s : σ) (k : σ → Res σ) : (Res.ok s).andThen k = k s := rfl
@[simp] theorem Res.andThen_error {σ : Type} (s : σ) (e : Err) (k : σ → Res σ) :
    (Res.error s e).andThen k = .error s e := rfl
@[simp] theorem Res.andThen_panic {σ : Type} (s : σ) (p : CompilePanic) (k : σ → Res σ) :
    (Res.panic s p).andThen k = .panic s p := rfl

theorem Res.andThen_assoc {σ : Type} (r : Res σ) (k₁ k₂ : σ → Res σ) :
    (r.andThen k₁).andThen k₂ = r.andThen fun s => (k₁ s).andThen k₂ := by
  cases r <;> rfl

theorem matchFn_eq (src : Source) (re : Regexp) (pathDir e : String) (p : String) (d : DirEntry)
    (loc : Located) (err : Option String) (s : Scan) :
    matchFn src re pathDir e p d loc err s = .ok (scanOf src re pathDir e s [p]) := by
  unfold matchFn scanOf
  by_cases h : re (TrimPrefix p pathDir) = true <;> simp [h]

theorem scanOf_append (src : Source) (re : Regexp) (pathDir e : String) (s : Scan)
    (a b : List String) :
    scanOf src re pathDir e (scanOf src re pathDir e s a) b = scanOf src re pathDir e s (a ++ b) := by
  simp [scanOf, List.append_assoc]

theorem walkEntries_matchFn (src : Source) (re : Regexp) (pathDir e : String) (es : Entries) :
    ∀ (path : String) (here : Directory) (s : Scan),
      walkEntries (matchFn src re pathDir e) path here es s
        = .ok (scanOf src re pathDir e s (visits path es)) := by
  induction es with
  | nil => intro path here s; simp [walkEntries, visits, scanOf]
  | file name data rest ih =>
    intro path here s
    simp only [walkEntries, visits, matchFn_eq, Res.andThen_ok, ih, scanOf_append]
    rfl
  | dir name readErr sub rest ihs ihr =>
    intro path here s
    cases readErr with
    | none =>
      simp only [walkEntries, visits, matchFn_eq, Res.andThen_ok, ihs, ihr, scanOf_append,
        reportReadDir]
      simp
    | some x =>
      simp only [walkEntries, visits, matchFn_eq, Res.andThen_ok, ihs, ihr, scanOf_append,
        reportReadDir]
      simp

theorem WalkDir_matchFn (src : Source) (re : Regexp) (pathDir e : String) (root : String)
    (rootDir : Directory) (s : Scan) :
    WalkDir (matchFn src re pathDir e) root rootDir s
      = .ok (scanOf src re pathDir e s (rootVisits root rootDir)) := by
  unfold WalkDir rootVisits
  cases h : rootDir.readErr <;>
    simp [matchFn_eq, reportReadDir, h, walkEntries_matchFn, scanOf_append]

theorem matchingFiles_eq (src : Source) (re : Regexp) (path : String) (parent : Directory)
    (e : String) :
    matchingFiles src re path parent e = (checkPaths (Dir path ++ "/") parent).filter re := by
  simp [matchingFiles, WalkDir_matchFn, scanOf, Res.state, checkPaths]

/-! ## The outer walk validates the discovered files in order -/

theorem validateAll_append (src : Source) (compile : Compile) (a b : List OwnersFile) (log : Log) :
    validateAll src compile (a ++ b) log
      = (validateAll src compile a log).andThen (validateAll src compile b) := by
  induction a generalizing log with
  | nil => rfl
  | cons f fs ih =>
    simp only [List.cons_append, validateAll, Res.andThen_assoc]
    congr 1
    funext s
    exact ih s

theorem ownersFn_dir (src : Source) (compile : Compile) (path name : String) (loc : Located)
    (err : Option String) (log : Log) :
    ownersFn src compile path ⟨name, true⟩ loc err log = .ok log := by
  simp [ownersFn]

theorem ownersFn_file (src : Source) (compile : Compile) (path name : String) (data : FileData)
    (here : Directory) (log : Log) :
    ownersFn src compile path ⟨name, false⟩ ⟨data, here⟩ none log
      = validateAll src compile
          (if name != "OWNERS" || Contains path "/vendor/" then [] else [⟨path, data, here⟩]) log := by
  by_cases h : (name != "OWNERS" || Contains path "/vendor/") = true
  · simp only [h, if_true, validateAll]
    simp only [ownersFn, Bool.false_or, h, if_true]
  · have hn : name = "OWNERS" := by
      by_contra hne
      apply h
      simp [hne]
    subst hn
    simp only [h, validateAll, validateFile, ownersFn, Bool.false_or]
    cases hr : checkOwnersFile src compile path ⟨data, here⟩ log <;> simp

theorem walkEntries_ownersFn (src : Source) (compile : Compile) (es : Entries) :
    ∀ (path : String) (here : Directory) (log : Log),
      walkEntries (ownersFn src compile) path here es log
        = validateAll src compile (ownersIn path here es) log := by
  induction es with
  | nil => intro path here log; rfl
  | file name data rest ih =>
    intro path here log
    simp only [walkEntries, ownersIn, validateAll_append, ownersFn_file]
    congr 1
    funext s
    exact ih path here s
  | dir name readErr sub rest ihs ihr =>
    intro path here log
    have hrep : reportReadDir (ownersFn src compile) (Join path name) ⟨name, true⟩
        ⟨.unreadable "is a directory", here⟩ readErr log = .ok log := by
      cases readErr <;> simp [reportReadDir, ownersFn_dir]
    simp only [walkEntries, ownersIn, validateAll_append, ownersFn_dir, Res.andThen_ok, hrep, ihs]
    congr 1
    funext s
    exact ihr path here s

theorem WalkDir_ownersFn (src : Source) (compile : Compile) (directory : String) (root : Directory)
    (log : Log) :
    WalkDir (ownersFn src compile) directory root log
      = validateAll src compile (discovered directory root) log := by
  have hrep : reportReadDir (ownersFn src compile) directory ⟨Base directory, true⟩
      ⟨.unreadable "is a directory", root⟩ root.readErr log = .ok log := by
    cases root.readErr <;> simp [reportReadDir, ownersFn_dir]
  simp only [WalkDir, ownersFn_dir, Res.andThen_ok, hrep, walkEntries_ownersFn, discovered]

/-! ## The loop over the filter expressions -/

theorem afterScan_WalkDir (src : Source) (re : Regexp) (path : String) (parent : Directory)
    (e : String) (log : Log) :
    afterScan src (Dir path ++ "/") e
        (WalkDir (matchFn src re (Dir path ++ "/") e) (Dir path ++ "/") parent ⟨log, []⟩)
      = if matchingFiles src re path parent e = [] then
          .error (log ++ checkLog src path parent e) (.noMatch e)
        else
          .ok (log ++ (checkLog src path parent e ++
            [filesMatchedEntry src (Dir path ++ "/") e (matchingFiles src re path parent e)])) := by
  rw [matchingFiles_eq, WalkDir_matchFn]
  simp only [afterScan, scanOf, List.nil_append, checkLog, checkPaths, List.map_map,
    List.length_eq_zero, List.append_assoc]
  rfl

theorem rangeFilters_sentinel (src : Source) (compile : Compile) (path : String)
    (parent : Directory) (rest : List String) (log : Log) :
    rangeFilters src compile path parent (".*" :: rest) log
      = rangeFilters src compile path parent rest log := by
  simp [rangeFilters]

theorem rangeFilters_panic (src : Source) (compile : Compile) (path : String)
    (parent : Directory) (e : String) (rest : List String) (log : Log) (cause : String)
    (he : e ≠ ".*") (hc : compile e = .error cause) :
    rangeFilters src compile path parent (e :: rest) log = .panic log ⟨e, cause⟩ := by
  simp [rangeFilters, he, hc]

theorem rangeFilters_noMatch (src : Source) (compile : Compile) (path : String)
    (parent : Directory) (e : String) (rest : List String) (log : Log) (re : Regexp)
    (he : e ≠ ".*") (hc : compile e = .ok re) (hm : matchingFiles src re path parent e = []) :
    rangeFilters src compile path parent (e :: rest) log
      = .error (log ++ checkLog src path parent e) (.noMatch e) := by
  simp only [rangeFilters, he, if_false, hc, afterScan_WalkDir, hm, if_true, Res.andThen_error]

theorem rangeFilters_match (src : Source) (compile : Compile) (path : String)
    (parent : Directory) (e : String) (rest : List String) (log : Log) (re : Regexp)
    (he : e ≠ ".*") (hc : compile e = .ok re) (hm : matchingFiles src re path parent e ≠ []) :
    rangeFilters src compile path parent (e :: rest) log
      = rangeFilters src compile path parent rest
          (log ++ filterLog src compile path parent e) := by
  simp only [rangeFilters, he, if_false, hc, afterScan_WalkDir, hm, Res.andThen_ok, filterLog]

theorem rangeFilters_pass (src : Source) (compile : Compile) (path : String)
    (parent : Directory) (e : String) (rest : List String) (log : Log)
    (hp : filterPasses src compile path parent e = true) :
    rangeFilters src compile path parent (e :: rest) log
      = rangeFilters src compile path parent rest
          (log ++ filterLog src compile path parent e) := by
  by_cases he : e = ".*"
  · subst he
    simp [rangeFilters_sentinel, filterLog]
  · cases hc : compile e with
    | error cause => simp [filterPasses, he, hc] at hp
    | ok re =>
      have hm : matchingFiles src re path parent e ≠ [] := by
        simpa [filterPasses, he, hc] using hp
      exact rangeFilters_match src compile path parent e rest log re he hc hm

theorem rangeFilters_fail (src : Source) (compile : Compile) (path : String)
    (parent : Directory) (e : String) (rest : List String) (log : Log)
    (hp : filterPasses src compile path parent e = false) :
    (rangeFilters src compile path parent (e :: rest) log).isOk = false := by
  have he : e ≠ ".*" := by
    intro h
    simp [filterPasses, h] at hp
  cases hc : compile e with
  | error cause => rw [rangeFilters_panic src compile path parent e rest log cause he hc]; rfl
  | ok re =>
    have hm : matchingFiles src re path parent e = [] := by
      simpa [filterPasses, he, hc] using hp
    rw [rangeFilters_noMatch src compile path parent e rest log re he hc hm]; rfl

/-- When every expression passes, the loop returns nil, with the records of
each expression added to the log in order. -/
theorem rangeFilters_all_pass (src : Source) (compile : Compile) (path : String)
    (parent : Directory) (fs : List String) :
    ∀ log : Log, fs.all (filterPasses src compile path parent) = true →
      rangeFilters src compile path parent fs log
        = .ok (log ++ fs.flatMap (filterLog src compile path parent)) := by
  induction fs with
  | nil => intro log _; simp [rangeFilters]
  | cons e rest ih =>
    intro log h
    simp only [List.all_cons, Bool.and_eq_true] at h
    rw [rangeFilters_pass src compile path parent e rest log h.1, ih _ h.2]
    simp [List.flatMap_cons, List.append_assoc]

theorem rangeFilters_isOk (src : Source) (compile : Compile) (path : String)
    (parent : Directory) (fs : List String) :
    ∀ log : Log, (rangeFilters src compile path parent fs log).isOk
      = fs.all (filterPasses src compile path parent) := by
  induction fs with
  | nil => intro log; rfl
  | cons e rest ih =>
    intro log
    cases hp : filterPasses src compile path parent e with
    | true => rw [rangeFilters_pass src compile path parent e rest log hp, ih]; simp [hp]
    | false => rw [rangeFilters_fail src compile path parent e rest log hp]; simp [hp]

/-! ## When a run succeeds -/

@[simp] theorem Res.isOk_ok {σ : Type} (s : σ) : (Res.ok s).isOk = true := rfl
@[simp] theorem Res.isOk_error {σ : Type} (s : σ) (e : Err) : (Res.error s e).isOk = false := rfl
@[simp] theorem Res.isOk_panic {σ : Type} (s : σ) (p : CompilePanic) :
    (Res.panic s p).isOk = false := rfl

theorem validateFile_isOk (src : Source) (compile : Compile) (f : OwnersFile) (log : Log) :
    (validateFile src compile f log).isOk = fileValidates src compile f := by
  unfold validateFile checkOwnersFile fileValidates
  cases f.data <;> simp [rangeFilters_isOk]

theorem validateFile_of_validates (src : Source) (compile : Compile) (f : OwnersFile) (log : Log)
    (h : fileValidates src compile f = true) :
    validateFile src compile f log = .ok (log ++ fileLog src compile f) := by
  unfold validateFile checkOwnersFile fileLog
  unfold fileValidates at h
  cases hd : f.data with
  | unreadable c => simp [hd] at h
  | malformed c => simp [hd] at h
  | noDocument => simp
  | owners fs =>
    rw [hd] at h
    simp only [rangeFilters_all_pass src compile f.path f.parent fs _ h]
    simp

theorem validateAll_isOk (src : Source) (compile : Compile) (fs : List OwnersFile) :
    ∀ log : Log, (validateAll src compile fs log).isOk = fs.all (fileValidates src compile) := by
  induction fs with
  | nil => intro log; rfl
  | cons f rest ih =>
    intro log
    have h1 := validateFile_isOk src compile f log
    simp only [validateAll, List.all_cons]
    cases hr : validateFile src compile f log with
    | ok s => rw [hr] at h1; simp [ih, ← h1]
    | error s e => rw [hr] at h1; simp [← h1]
    | panic s p => rw [hr] at h1; simp [← h1]

theorem validateAll_of_validates (src : Source) (compile : Compile) (fs : List OwnersFile) :
    ∀ log : Log, fs.all (fileValidates src compile) = true →
      validateAll src compile fs log = .ok (log ++ fs.flatMap (fileLog src compile)) := by
  induction fs with
  | nil => intro log _; simp [validateAll]
  | cons f rest ih =>
    intro log h
    simp only [List.all_cons, Bool.and_eq_true] at h
    simp only [validateAll, validateFile_of_validates src compile f log h.1, Res.andThen_ok,
      ih _ h.2, List.flatMap_cons, List.append_assoc]

theorem checkFilters_eq (src : Source) (compile : Compile) (directory : String) (root : Directory)
    (hdir : directory ≠ "") :
    checkFilters src compile directory (.isDir root)
      = match validateAll src compile (discovered directory root) [] with
        | .ok log => .success log
        | .error log err => .fatal log (.failedToCheckOwners err)
        | .panic log p => .panic log p := by
  simp only [checkFilters, hdir, if_false, WalkDir_ownersFn]

theorem checkFilters_isSuccess (src : Source) (compile : Compile) (directory : String)
    (root : Directory) (hdir : directory ≠ "") :
    (checkFilters src compile directory (.isDir root)).isSuccess
      = (discovered directory root).all (fileValidates src compile) := by
  rw [checkFilters_eq src compile directory root hdir, ← validateAll_isOk src compile _ []]
  cases validateAll src compile (discovered directory root) [] <;> rfl

theorem checkFilters_of_validates (src : Source) (compile : Compile) (directory : String)
    (root : Directory) (hdir : directory ≠ "")
    (h : (discovered directory root).all (fileValidates src compile) = true) :
    checkFilters src compile directory (.isDir root)
      = .success ((discovered directory root).flatMap (fileLog src compile)) := by
  rw [checkFilters_eq src compile directory root hdir,
    validateAll_of_validates src compile _ [] h]
  rfl

/-! ## What a run does not depend on -/

theorem matchingFiles_congr (src : Source) (re : Regexp) (path : String) (p p' : Directory)
    (e : String) (h : p.SameVisits p') :
    matchingFiles src re path p e = matchingFiles src re path p' e := by
  simp only [matchingFiles_eq, checkPaths, h (Dir path ++ "/")]

theorem rangeFilters_congr (src : Source) (compile : Compile) (path : String) (p p' : Directory)
    (h : p.SameVisits p') (fs : List String) :
    ∀ log : Log, rangeFilters src compile path p fs log = rangeFilters src compile path p' fs log := by
  induction fs with
  | nil => intro log; rfl
  | cons e rest ih =>
    intro log
    simp only [rangeFilters, WalkDir_matchFn, h (Dir path ++ "/"), ih]

theorem filterPasses_congr (src : Source) (compile : Compile) (path : String) (p p' : Directory)
    (h : p.SameVisits p') (e : String) :
    filterPasses src compile path p e = filterPasses src compile path p' e := by
  unfold filterPasses
  cases compile e <;> simp [matchingFiles_congr src _ path p p' e h]

theorem filterLog_congr (src : Source) (compile : Compile) (path : String) (p p' : Directory)
    (h : p.SameVisits p') (e : String) :
    filterLog src compile path p e = filterLog src compile path p' e := by
  unfold filterLog checkLog
  cases compile e <;> simp [matchingFiles_congr src _ path p p' e h, checkPaths, h (Dir path ++ "/")]

theorem validateFile_congr (src : Source) (compile : Compile) (f f' : OwnersFile)
    (h : Alike Eq f f') (log : Log) :
    validateFile src compile f log = validateFile src compile f' log := by
  obtain ⟨hp, hd, hv⟩ := h
  unfold validateFile checkOwnersFile
  simp only [hp, hd]
  cases f'.data <;> simp only [rangeFilters_congr src compile f'.path f.parent f'.parent hv]

theorem validateAll_congr (src : Source) (compile : Compile) (fs fs' : List OwnersFile)
    (h : List.Forall₂ (Alike Eq) fs fs') :
    ∀ log : Log, validateAll src compile fs log = validateAll src compile fs' log := by
  induction h with
  | nil => intro log; rfl
  | cons hf _ ih =>
    intro log
    simp only [validateAll, validateFile_congr src compile _ _ hf]
    congr 1
    funext s
    exact ih s

theorem fileValidates_reordered (src : Source) (compile : Compile) (f f' : OwnersFile)
    (h : Alike FileData.Reordered f f') :
    fileValidates src compile f = fileValidates src compile f' := by
  obtain ⟨path, d, parent⟩ := f
  obtain ⟨path', d', parent'⟩ := f'
  obtain ⟨hp, hd, hv⟩ := h
  simp only at hp hd hv
  subst hp
  unfold fileValidates
  simp only
  have hfp : filterPasses src compile path parent = filterPasses src compile path parent' := by
    funext e
    rw [filterPasses_congr src compile path parent parent' hv]
  cases hd with
  | same d => rw [hfp]
  | keys hperm =>
    rename_i a b
    simp only [hfp]
    rw [Bool.eq_iff_iff]
    simp only [List.all_eq_true]
    exact ⟨fun h x hx => h x (hperm.mem_iff.mpr hx), fun h x hx => h x (hperm.mem_iff.mp hx)⟩

theorem fileLog_reordered (src : Source) (compile : Compile) (f f' : OwnersFile)
    (h : Alike FileData.Reordered f f') :
    (fileLog src compile f).Perm (fileLog src compile f') := by
  obtain ⟨path, d, parent⟩ := f
  obtain ⟨path', d', parent'⟩ := f'
  obtain ⟨hp, hd, hv⟩ := h
  simp only at hp hd hv
  subst hp
  unfold fileLog
  simp only
  have hfl : filterLog src compile path parent = filterLog src compile path parent' := by
    funext e
    rw [filterLog_congr src compile path parent parent' hv]
  cases hd with
  | same d => rw [hfl]
  | keys hperm =>
    simp only [hfl]
    exact List.Perm.cons _ (hperm.flatMap_right _)

theorem all_validate_reordered (src : Source) (compile : Compile) (fs fs' : List OwnersFile)
    (h : List.Forall₂ (Alike FileData.Reordered) fs fs') :
    fs.all (fileValidates src compile) = fs'.all (fileValidates src compile) := by
  induction h with
  | nil => rfl
  | cons hf _ ih => simp only [List.all_cons, fileValidates_reordered src compile _ _ hf, ih]

theorem fileLogs_reordered (src : Source) (compile : Compile) (fs fs' : List OwnersFile)
    (h : List.Forall₂ (Alike FileData.Reordered) fs fs') :
    (fs.flatMap (fileLog src compile)).Perm (fs'.flatMap (fileLog src compile)) := by
  induction h with
  | nil => exact List.Perm.refl _
  | cons hf _ ih =>
    simp only [List.flatMap_cons]
    exact List.Perm.append (fileLog_reordered src compile _ _ hf) ih

theorem visits_reordered {es es' : Entries} (h : es.Reordered es') :
    ∀ path : String, visits path es = visits path es' := by
  induction h with
  | nil => intro path; rfl
  | file _ _ ih => intro path; simp only [visits, ih]
  | dir _ _ ihs ihr => intro path; simp only [visits, ihs, ihr]

theorem sameVisits_of_reordered {a b : Directory} (h : a.Reordered b) : a.SameVisits b := by
  intro root
  simp only [rootVisits, h.1, visits_reordered h.2]

theorem ownersIn_reordered {es es' : Entries} (h : es.Reordered es') :
    ∀ (path : String) (here here' : Directory), here.SameVisits here' →
      List.Forall₂ (Alike FileData.Reordered) (ownersIn path here es) (ownersIn path here' es') := by
  induction h with
  | nil => intro path here here' _; exact List.Forall₂.nil
  | file hd _ ih =>
    intro path here here' hh
    simp only [ownersIn]
    refine List.rel_append ?_ (ih path here here' hh)
    split
    · exact List.Forall₂.nil
    · exact List.Forall₂.cons ⟨rfl, hd, hh⟩ List.Forall₂.nil
  | @dir name readErr sub sub' rest rest' hs _ ihs ihr =>
    intro path here here' hh
    simp only [ownersIn]
    have hsub : Directory.Reordered ⟨readErr, sub⟩ ⟨readErr, sub'⟩ := ⟨rfl, hs⟩
    exact List.rel_append (ihs _ _ _ (sameVisits_of_reordered hsub)) (ihr path here here' hh)

theorem discovered_reordered (directory : String) {root root' : Directory}
    (h : root.Reordered root') :
    List.Forall₂ (Alike FileData.Reordered) (discovered directory root)
      (discovered directory root') :=
  ownersIn_reordered h.2 directory root root' (sameVisits_of_reordered h)

theorem visits_overwriteVendor (new : String → FileData) (es : Entries) :
    ∀ p path : String, visits path (overwriteVendor new p es) = visits path es := by
  induction es with
  | nil => intro p path; rfl
  | file name data rest ih => intro p path; simp only [overwriteVendor, visits, ih]
  | dir name readErr sub rest ihs ihr =>
    intro p path; simp only [overwriteVendor, visits, ihs, ihr]

theorem ownersIn_overwriteVendor (new : String → FileData) (es : Entries) :
    ∀ (path : String) (here here' : Directory), here.SameVisits here' →
      List.Forall₂ (Alike Eq) (ownersIn path here es)
        (ownersIn path here' (overwriteVendor new path es)) := by
  induction es with
  | nil => intro path here here' _; exact List.Forall₂.nil
  | file name data rest ih =>
    intro path here here' hh
    simp only [ownersIn, overwriteVendor]
    refine List.rel_append ?_ (ih path here here' hh)
    by_cases hg : (name != "OWNERS" || Contains (Join path name) "/vendor/") = true
    · simp only [hg, if_true]
      exact List.Forall₂.nil
    · simp only [hg]
      have hv : ¬ (name = "OWNERS" ∧ Contains (Join path name) "/vendor/" = true) := by
        intro hc
        apply hg
        simp [hc.2]
      simp only [hv, if_false]
      exact List.Forall₂.cons ⟨rfl, rfl, hh⟩ List.Forall₂.nil
  | dir name readErr sub rest ihs ihr =>
    intro path here here' hh
    simp only [ownersIn, overwriteVendor]
    refine List.rel_append (ihs _ _ _ ?_) (ihr path here here' hh)
    intro root
    simp only [rootVisits, visits_overwriteVendor]

/-! ## The first failure of a run -/

theorem rangeFilters_pass_append (src : Source) (compile : Compile) (path : String)
    (parent : Directory) (fpre rest : List String) :
    ∀ log : Log, fpre.all (filterPasses src compile path parent) = true →
      rangeFilters src compile path parent (fpre ++ rest) log
        = rangeFilters src compile path parent rest
            (log ++ fpre.flatMap (filterLog src compile path parent)) := by
  induction fpre with
  | nil => intro log _; simp
  | cons e more ih =>
    intro log h
    simp only [List.all_cons, Bool.and_eq_true] at h
    rw [List.cons_append, rangeFilters_pass src compile path parent e _ log h.1, ih _ h.2]
    simp [List.flatMap_cons, List.append_assoc]

theorem validateAll_pass_append (src : Source) (compile : Compile) (pre rest : List OwnersFile)
    (log : Log) (h : pre.all (fileValidates src compile) = true) :
    validateAll src compile (pre ++ rest) log
      = validateAll src compile rest (log ++ pre.flatMap (fileLog src compile)) := by
  rw [validateAll_append, validateAll_of_validates src compile pre log h]
  rfl

theorem validates_false_of_filter (src : Source) (compile : Compile) (f : OwnersFile)
    (filters : List String) (hd : f.data = .owners filters) (e : String) (he : e ∈ filters)
    (hp : filterPasses src compile f.path f.parent e = false) :
    fileValidates src compile f = false := by
  unfold fileValidates
  rw [hd]
  simp only [List.all_eq_false]
  exact ⟨e, he, by simp [hp]⟩

theorem isSuccess_false_of_file (src : Source) (compile : Compile) (directory : String)
    (root : Directory) (hdir : directory ≠ "") (f : OwnersFile)
    (hf : f ∈ discovered directory root) (hv : fileValidates src compile f = false) :
    (checkFilters src compile directory (.isDir root)).isSuccess = false := by
  rw [checkFilters_isSuccess src compile directory root hdir, List.all_eq_false]
  exact ⟨f, hf, by simp [hv]⟩

theorem matchingFiles_nil_iff (src : Source) (re : Regexp) (path : String) (parent : Directory)
    (e : String) :
    matchingFiles src re path parent e = []
      ↔ ∀ checkPath ∈ checkPaths (Dir path ++ "/") parent, re checkPath = false := by
  rw [matchingFiles_eq, List.filter_eq_nil_iff]
  simp

/-! ## Cleaned paths -/

theorem splitSlash_ne_nil (s : List Char) : splitSlash s ≠ [] := by
  induction s with
  | nil => simp [splitSlash]
  | cons c cs ih =>
    unfold splitSlash
    split
    · simp
    · split <;> simp

theorem splitSlash_append (a b : List Char) :
    splitSlash (a ++ '/' :: b) = splitSlash a ++ splitSlash b := by
  induction a with
  | nil => simp [splitSlash]
  | cons c cs ih =>
    by_cases hc : c = '/'
    · simp [splitSlash, hc, ih]
    · have h1 : splitSlash (c :: cs) = match splitSlash cs with
          | [] => [[c]]
          | seg :: rest => (c :: seg) :: rest := by
        rw [splitSlash]; simp [hc]
      have h2 : splitSlash (c :: (cs ++ '/' :: b)) = match splitSlash (cs ++ '/' :: b) with
          | [] => [[c]]
          | seg :: rest => (c :: seg) :: rest := by
        rw [splitSlash]; simp [hc]
      rw [List.cons_append, h2, h1, ih]
      cases hs : splitSlash cs with
      | nil => exact absurd hs (splitSlash_ne_nil cs)
      | cons seg rest => simp

theorem splitSlash_of_no_slash (s : List Char) (h : '/' ∉ s) : splitSlash s = [s] := by
  induction s with
  | nil => rfl
  | cons c cs ih =>
    have hc : c ≠ '/' := fun hc => h (by simp [hc])
    have hcs : '/' ∉ cs := fun hcs => h (by simp [hcs])
    rw [splitSlash]
    simp [hc, ih hcs]

theorem splitSlash_no_slash (s : List Char) : ∀ seg ∈ splitSlash s, '/' ∉ seg := by
  induction s with
  | nil => simp [splitSlash]
  | cons c cs ih =>
    by_cases hc : c = '/'
    · intro seg hseg
      simp only [splitSlash, hc, if_true, List.mem_cons] at hseg
      rcases hseg with h | h
      · simp [h]
      · exact ih seg h
    · intro seg hseg
      rw [splitSlash] at hseg
      simp only [hc, if_false] at hseg
      cases hs : splitSlash cs with
      | nil => exact absurd hs (splitSlash_ne_nil cs)
      | cons seg0 rest =>
        rw [hs] at hseg ih
        simp only [List.mem_cons] at hseg
        rcases hseg with h | h
        · subst h
          have := ih seg0 (by simp)
          intro hmem
          simp only [List.mem_cons] at hmem
          rcases hmem with h1 | h1
          · exact hc h1.symm
          · exact this h1
        · exact ih seg (by simp [h])

theorem splitSlash_joinSegs (segs : List (List Char)) (hne : segs ≠ [])
    (h : ∀ s ∈ segs, '/' ∉ s) : splitSlash (joinSegs segs) = segs := by
  induction segs with
  | nil => exact absurd rfl hne
  | cons s rest ih =>
    cases rest with
    | nil => simpa [joinSegs] using splitSlash_of_no_slash s (h s (by simp))
    | cons t more =>
      rw [joinSegs, splitSlash_append, splitSlash_of_no_slash s (h s (by simp)),
        ih (by simp) (fun x hx => h x (by simp [hx]))]
      rfl

theorem joinSegs_append (a : List (List Char)) (b : List (List Char)) (ha : a ≠ [])
    (hb : b ≠ []) : joinSegs (a ++ b) = joinSegs a ++ '/' :: joinSegs b := by
  induction a with
  | nil => exact absurd rfl ha
  | cons s rest ih =>
    cases rest with
    | nil =>
      cases b with
      | nil => exact absurd rfl hb
      | cons t more => simp [joinSegs]
    | cons t more =>
      have := ih (by simp)
      simp only [List.cons_append] at this ⊢
      rw [joinSegs, this, joinSegs]
      simp

theorem cleanStep_normal (rooted : Bool) (stack : List (List Char)) (seg : List Char)
    (h : Normal seg) : cleanStep rooted stack seg = seg :: stack := by
  simp [cleanStep, h.1, h.2.1, h.2.2.1]

theorem cleanStep_empty (rooted : Bool) (stack : List (List Char)) :
    cleanStep rooted stack [] = stack := by
  simp [cleanStep]

theorem foldl_cleanStep_normal (rooted : Bool) (segs : List (List Char))
    (h : ∀ s ∈ segs, Normal s) :
    ∀ acc, segs.foldl (cleanStep rooted) acc = segs.reverse ++ acc := by
  induction segs with
  | nil => intro acc; rfl
  | cons s rest ih =>
    intro acc
    rw [List.foldl_cons, cleanStep_normal rooted acc s (h s (by simp)),
      ih (fun x hx => h x (by simp [hx]))]
    simp

theorem goodStack_step (rooted : Bool) (stack : List (List Char)) (seg : List Char)
    (h : GoodStack rooted stack) (hseg : '/' ∉ seg) : GoodStack rooted (cleanStep rooted stack seg) := by
  obtain ⟨names, k, hst, hn, hk⟩ := h
  unfold cleanStep
  by_cases h1 : seg = [] ∨ seg = ['.']
  · simp only [h1, if_true]
    exact ⟨names, k, hst, hn, hk⟩
  · simp only [h1, if_false]
    by_cases h2 : seg = ['.', '.']
    · simp only [h2, if_true]
      cases names with
      | nil =>
        cases k with
        | zero =>
          simp only [List.nil_append, List.replicate_zero] at hst
          subst hst
          cases rooted with
          | true => exact ⟨[], 0, by simp, by simp, by simp⟩
          | false => exact ⟨[], 1, by simp, by simp, by simp⟩
        | succ j =>
          simp only [List.nil_append, List.replicate_succ] at hst
          subst hst
          simp only [if_true]
          refine ⟨[], j + 2, by simp [List.replicate_succ], by simp, ?_⟩
          intro hr
          exact absurd (hk hr) (by simp)
      | cons top more =>
        simp only [List.cons_append] at hst
        subst hst
        have htop : top ≠ ['.', '.'] := (hn top (by simp)).2.2.1
        simp only [htop, if_false]
        exact ⟨more, k, rfl, fun s hs => hn s (by simp [hs]), hk⟩
    · simp only [h2, if_false]
      refine ⟨seg :: names, k, by simp [hst], ?_, hk⟩
      intro s hs
      simp only [List.mem_cons] at hs
      rcases hs with h | h
      · subst h
        exact ⟨fun h => h1 (Or.inl h), fun h => h1 (Or.inr h), h2, hseg⟩
      · exact hn s h

theorem goodStack_foldl (rooted : Bool) (segs : List (List Char)) (h : ∀ s ∈ segs, '/' ∉ s) :
    ∀ stack, GoodStack rooted stack → GoodStack rooted (segs.foldl (cleanStep rooted) stack) := by
  induction segs with
  | nil => intro stack hs; exact hs
  | cons s rest ih =>
    intro stack hs
    exact ih (fun x hx => h x (by simp [hx])) _
      (goodStack_step rooted stack s hs (h s (by simp)))

theorem foldl_cleanStep_dotdots (k : Nat) :
    (List.replicate k ['.', '.']).foldl (cleanStep false) [] = List.replicate k ['.', '.'] := by
  have key : ∀ j, (List.replicate k ['.', '.']).foldl (cleanStep false) (List.replicate j ['.', '.'])
      = List.replicate (j + k) ['.', '.'] := by
    induction k with
    | zero => intro j; simp
    | succ n ih =>
      intro j
      rw [List.replicate_succ, List.foldl_cons]
      have hstep : cleanStep false (List.replicate j ['.', '.']) ['.', '.']
          = List.replicate (j + 1) ['.', '.'] := by
        cases j with
        | zero => simp [cleanStep]
        | succ i => simp [cleanStep, List.replicate_succ]
      rw [hstep, ih (j + 1)]
      congr 1
      omega
  simpa using key 0

theorem stable_of_goodStack (rooted : Bool) (stack : List (List Char))
    (h : GoodStack rooted stack) : StableSegs rooted stack.reverse := by
  obtain ⟨names, k, hst, hn, hk⟩ := h
  subst hst
  constructor
  · rw [List.reverse_reverse, List.reverse_append, List.reverse_replicate, List.foldl_append]
    have hd : (List.replicate k ['.', '.']).foldl (cleanStep rooted) []
        = List.replicate k ['.', '.'] := by
      cases rooted with
      | true => simp [hk rfl]
      | false => exact foldl_cleanStep_dotdots k
    rw [hd, foldl_cleanStep_normal rooted names.reverse (fun s hs => hn s (by simpa using hs))]
    simp
  · intro s hs
    simp only [List.mem_reverse, List.mem_append] at hs
    rcases hs with h | h
    · exact ⟨(hn s h).1, (hn s h).2.2.2⟩
    · have := List.eq_of_mem_replicate h
      subst this
      decide

/-- The result of `filepath.Clean` is the text of elements that it leaves as
they are. -/
theorem cleanChars_form (x : List Char) :
    ∃ (rooted : Bool) (segs : List (List Char)),
      cleanChars x = render rooted segs ∧ StableSegs rooted segs := by
  have hgood : ∀ rooted, GoodStack rooted ((splitSlash x).foldl (cleanStep rooted) []) :=
    fun rooted => goodStack_foldl rooted _ (splitSlash_no_slash x) []
      ⟨[], 0, by simp, by simp, by simp⟩
  by_cases hx : ∃ rest, x = '/' :: rest
  · obtain ⟨rest, hx⟩ := hx
    refine ⟨true, cleanSegs true (splitSlash x), ?_, stable_of_goodStack true _ (hgood true)⟩
    subst hx
    simp [cleanChars, render]
  · refine ⟨false, cleanSegs false (splitSlash x), ?_, stable_of_goodStack false _ (hgood false)⟩
    have : cleanChars x
        = match cleanSegs false (splitSlash x) with
          | [] => ['.']
          | segs => joinSegs segs := by
      unfold cleanChars
      split
      · exact absurd ⟨_, rfl⟩ hx
      · rfl
    rw [this]
    simp only [render, Bool.false_eq_true, if_false]
    cases cleanSegs false (splitSlash x) <;> rfl

theorem restack (rooted : Bool) (segs : List (List Char)) (h : StableSegs rooted segs) :
    (splitSlash (render rooted segs)).foldl (cleanStep rooted) [] = segs.reverse := by
  obtain ⟨hfold, hsegs⟩ := h
  cases rooted with
  | true =>
    simp only [render, if_true, splitSlash, List.foldl_cons, cleanStep_empty]
    cases segs with
    | nil => simp [joinSegs, splitSlash, cleanStep_empty]
    | cons s rest =>
      rw [splitSlash_joinSegs (s :: rest) (by simp) (fun x hx => (hsegs x hx).2)]
      exact hfold
  | false =>
    cases segs with
    | nil => simp [render, splitSlash, cleanStep]
    | cons s rest =>
      simp only [render, Bool.false_eq_true, if_false]
      rw [splitSlash_joinSegs (s :: rest) (by simp) (fun x hx => (hsegs x hx).2)]
      exact hfold

theorem joinSegs_head (s : List Char) (rest : List (List Char)) (c : Char) (cs : List Char)
    (hs : s = c :: cs) : ∃ tail, joinSegs (s :: rest) = c :: tail := by
  subst hs
  cases rest with
  | nil => exact ⟨cs, rfl⟩
  | cons t more => exact ⟨cs ++ '/' :: joinSegs (t :: more), rfl⟩

theorem cleanChars_rooted (rest : List Char) :
    cleanChars ('/' :: rest) = render true (cleanSegs true (splitSlash ('/' :: rest))) := by
  simp [cleanChars, render]

theorem cleanChars_relative (c : Char) (rest : List Char) (hc : c ≠ '/') :
    cleanChars (c :: rest) = render false (cleanSegs false (splitSlash (c :: rest))) := by
  have : cleanChars (c :: rest)
      = match cleanSegs false (splitSlash (c :: rest)) with
        | [] => ['.']
        | segs => joinSegs segs := by
    unfold cleanChars
    split
    · rename_i heq
      simp only [List.cons.injEq] at heq
      exact absurd heq.1 hc
    · rfl
  rw [this]
  simp only [render, Bool.false_eq_true, if_false]
  cases cleanSegs false (splitSlash (c :: rest)) <;> rfl

/-- Cleaning the text of stable elements followed by a slash and by a text that
the loop of `Clean` reads as the one element `n` gives the elements with `n`
appended. -/
theorem cleanChars_render_append (rooted : Bool) (segs : List (List Char))
    (h : StableSegs rooted segs) (n t : List Char)
    (ht : ∀ acc, (splitSlash t).foldl (cleanStep rooted) acc = n :: acc) :
    cleanChars (render rooted segs ++ '/' :: t) = render rooted (segs ++ [n]) := by
  have hsegs : cleanSegs rooted (splitSlash (render rooted segs ++ '/' :: t)) = segs ++ [n] := by
    unfold cleanSegs
    rw [splitSlash_append, List.foldl_append, restack rooted segs h, ht]
    simp
  cases rooted with
  | true =>
    have hr : render true segs ++ '/' :: t = '/' :: (joinSegs segs ++ '/' :: t) := by
      simp [render]
    rw [hr, cleanChars_rooted, ← hr, hsegs]
  | false =>
    cases segs with
    | nil =>
      have hr : render false [] ++ '/' :: t = '.' :: ('/' :: t) := by simp [render]
      rw [hr, cleanChars_relative '.' _ (by decide), ← hr, hsegs]
    | cons s rest =>
      have hs := (h.2 s (by simp))
      cases hsc : s with
      | nil => exact absurd hsc hs.1
      | cons c cs =>
        have hc : c ≠ '/' := by
          intro hc
          apply hs.2
          rw [hsc, hc]
          simp
        obtain ⟨tail, htail⟩ := joinSegs_head s rest c cs hsc
        have hr : render false (s :: rest) ++ '/' :: t = c :: (tail ++ '/' :: t) := by
          simp [render, htail]
        rw [← hsc, hr, cleanChars_relative c _ hc, ← hr, hsegs]

theorem stableSegs_append (rooted : Bool) (segs : List (List Char)) (h : StableSegs rooted segs)
    (n : List Char) (hn : Normal n) : StableSegs rooted (segs ++ [n]) := by
  constructor
  · rw [List.foldl_append, h.1]
    simp [cleanStep_normal rooted _ n hn]
  · intro s hs
    simp only [List.mem_append, List.mem_singleton] at hs
    rcases hs with hs | hs
    · exact h.2 s hs
    · subst hs
      exact ⟨hn.1, hn.2.2.2⟩

theorem stableSegs_append_list (rooted : Bool) (segs : List (List Char))
    (h : StableSegs rooted segs) (rs : List (List Char)) (hrs : ∀ x ∈ rs, Normal x) :
    StableSegs rooted (segs ++ rs) := by
  induction rs using List.reverseRecOn with
  | nil => simpa using h
  | append_singleton more n ih =>
    rw [← List.append_assoc]
    exact stableSegs_append rooted _ (ih fun x hx => hrs x (by simp [hx])) n
      (hrs n (by simp))

theorem split_name (rooted : Bool) (n : List Char) (hn : Normal n) :
    ∀ acc, (splitSlash n).foldl (cleanStep rooted) acc = n :: acc := by
  intro acc
  rw [splitSlash_of_no_slash n hn.2.2.2]
  simp [cleanStep_normal rooted acc n hn]

theorem split_slash_name (rooted : Bool) (n : List Char) (hn : Normal n) :
    ∀ acc, (splitSlash ('/' :: n)).foldl (cleanStep rooted) acc = n :: acc := by
  intro acc
  rw [splitSlash]
  simp only [if_true, List.foldl_cons, cleanStep_empty]
  exact split_name rooted n hn acc

theorem trimChars_append (p s : List Char) : trimChars (p ++ s) p = s := by
  unfold trimChars
  have : p.isPrefixOf (p ++ s) = true := by
    rw [List.isPrefixOf_iff_prefix]
    exact List.prefix_append p s
  simp [this]

theorem trimChars_self (p : List Char) : trimChars p p = [] := by
  simpa using trimChars_append p []

theorem trimChars_of_not (p s : List Char) (h : p.isPrefixOf s = false) : trimChars s p = s := by
  simp [trimChars, h]

theorem dot_slash_not_before_name (n : List Char) (hn : Normal n) (rest : List (List Char)) :
    ['.', '/'].isPrefixOf (joinSegs (n :: rest)) = false := by
  obtain ⟨h1, h2, _, h4⟩ := hn
  cases n with
  | nil => exact absurd rfl h1
  | cons c cs =>
    by_cases hc : c = '.'
    · subst hc
      cases cs with
      | nil => exact absurd rfl h2
      | cons d ds =>
        have hd : d ≠ '/' := by
          intro hd
          apply h4
          simp [hd]
        cases rest with
        | nil => simp [joinSegs, List.isPrefixOf, Ne.symm hd]
        | cons t more => simp [joinSegs, List.isPrefixOf, Ne.symm hd]
    · cases rest with
      | nil => simp [joinSegs, List.isPrefixOf, Ne.symm hc]
      | cons t more => simp [joinSegs, List.isPrefixOf, Ne.symm hc]

/-- Removing the text of a cleaned directory and a slash from the text of a path
below it leaves the relative path, unless the directory is the root `/`. -/
theorem trimChars_render (rooted : Bool) (segs rs : List (List Char))
    (hroot : ¬ (rooted = true ∧ segs = [])) (hrs : ∀ x ∈ rs, Normal x) (hne : rs ≠ []) :
    trimChars (render rooted (segs ++ rs)) (render rooted segs ++ ['/']) = joinSegs rs := by
  cases segs with
  | nil =>
    cases rooted with
    | true => exact absurd ⟨rfl, rfl⟩ hroot
    | false =>
      cases rs with
      | nil => exact absurd rfl hne
      | cons n rest =>
        have : render false ([] ++ n :: rest) = joinSegs (n :: rest) := by simp [render]
        rw [this]
        apply trimChars_of_not
        simpa [render] using dot_slash_not_before_name n (hrs n (by simp)) rest
  | cons s more =>
    have hj := joinSegs_append (s :: more) rs (by simp) hne
    cases rooted with
    | true =>
      have : render true (s :: more ++ rs) = (render true (s :: more) ++ ['/']) ++ joinSegs rs := by
        simp only [render, if_true, hj]
        simp
      rw [this, trimChars_append]
    | false =>
      have h1 : render false (s :: more ++ rs) = joinSegs (s :: more ++ rs) := by
        simp [render]
      have h2 : render false (s :: more) = joinSegs (s :: more) := by simp [render]
      rw [h1, h2, hj]
      have : joinSegs (s :: more) ++ '/' :: joinSegs rs
          = (joinSegs (s :: more) ++ ['/']) ++ joinSegs rs := by simp
      rw [this, trimChars_append]

/-! ## The inner walk yields relative paths -/

theorem render_ne_nil (rooted : Bool) (segs : List (List Char)) (h : ∀ s ∈ segs, s ≠ []) :
    render rooted segs ≠ [] := by
  cases rooted with
  | true => simp [render]
  | false =>
    cases segs with
    | nil => simp [render]
    | cons s rest =>
      cases hs : s with
      | nil => exact absurd hs (h s (by simp))
      | cons c cs =>
        obtain ⟨tail, htail⟩ := joinSegs_head s rest c cs hs
        rw [← hs]
        simp [render, htail]

theorem join_dirAt (c : String) (rooted : Bool) (segs : List (List Char))
    (hc : c.data = render rooted segs) (hst : StableSegs rooted segs) (q : String)
    (rs : List (List Char)) (hrs : ∀ x ∈ rs, Normal x) (hq : DirAt c rooted segs q rs)
    (name : String) (hn : Normal name.data) :
    (Join q name).data = render rooted (segs ++ (rs ++ [name.data])) := by
  have hstable := stableSegs_append_list rooted segs hst rs hrs
  have hqne : q ≠ "" := by
    intro hq0
    rcases hq with ⟨_, h⟩ | ⟨_, h⟩
    · rw [hq0] at h
      have := congrArg String.data h
      simp at this
    · rw [hq0] at h
      exact render_ne_nil rooted (segs ++ rs) (fun s hs => (hstable.2 s hs).1) h.symm
  have hjoin : (Join q name).data = cleanChars (q.data ++ '/' :: name.data) := by
    simp [Join, hqne, Clean]
  rw [hjoin]
  rcases hq with ⟨hrs0, h⟩ | ⟨_, h⟩
  · subst hrs0
    subst h
    have : (c ++ "/").data ++ '/' :: name.data = render rooted segs ++ '/' :: ('/' :: name.data) := by
      simp [hc]
    rw [this, cleanChars_render_append rooted segs hst name.data _
      (split_slash_name rooted name.data hn)]
    simp
  · rw [h, cleanChars_render_append rooted (segs ++ rs) hstable name.data _
      (split_name rooted name.data hn)]
    simp

theorem trim_join (c : String) (rooted : Bool) (segs : List (List Char))
    (hc : c.data = render rooted segs) (hst : StableSegs rooted segs)
    (hroot : ¬ (rooted = true ∧ segs = [])) (q : String)
    (rs : List (List Char)) (hrs : ∀ x ∈ rs, Normal x) (hq : DirAt c rooted segs q rs)
    (name : String) (hn : Normal name.data) :
    TrimPrefix (Join q name) (c ++ "/") = String.mk (joinSegs (rs ++ [name.data])) := by
  unfold TrimPrefix
  congr 1
  rw [join_dirAt c rooted segs hc hst q rs hrs hq name hn]
  have : (c ++ "/").data = render rooted segs ++ ['/'] := by simp [hc]
  rw [this]
  apply trimChars_render rooted segs _ hroot
  · intro x hx
    simp only [List.mem_append, List.mem_singleton] at hx
    rcases hx with hx | hx
    · exact hrs x hx
    · subst hx; exact hn
  · simp

theorem relPre_append_name (rs : List (List Char)) (name : String) :
    relPre rs ++ name = String.mk (joinSegs (rs ++ [name.data])) := by
  apply String.ext
  cases rs with
  | nil => simp [relPre, joinSegs]
  | cons r more =>
    simp only [relPre, String.data_append]
    rw [joinSegs_append (r :: more) [name.data] (by simp) (by simp)]
    simp [joinSegs]

theorem relPre_snoc (rs : List (List Char)) (name : String) :
    relPre (rs ++ [name.data]) = relPre rs ++ name ++ "/" := by
  rw [relPre_append_name]
  apply String.ext
  cases rs <;> simp [relPre]

theorem visits_trim (c : String) (rooted : Bool) (segs : List (List Char))
    (hc : c.data = render rooted segs) (hst : StableSegs rooted segs)
    (hroot : ¬ (rooted = true ∧ segs = [])) (es : Entries) :
    es.wellNamed → es.readable → ∀ (q : String) (rs : List (List Char)),
      (∀ x ∈ rs, Normal x) → DirAt c rooted segs q rs →
      (visits q es).map (fun p => TrimPrefix p (c ++ "/")) = relPathsIn (relPre rs) es := by
  induction es with
  | nil => intro _ _ q rs _ _; rfl
  | file name data rest ih =>
    intro hw hr q rs hrs hq
    simp only [visits, List.map_cons, relPathsIn]
    rw [trim_join c rooted segs hc hst hroot q rs hrs hq name hw.1, relPre_append_name,
      ih hw.2 hr q rs hrs hq]
  | dir name readErr sub rest ihs ihr =>
    intro hw hr q rs hrs hq
    obtain ⟨hname, hwsub, hwrest⟩ := hw
    obtain ⟨herr, hrsub, hrrest⟩ := hr
    subst herr
    have hrs1 : ∀ x ∈ rs ++ [name.data], Normal x := by
      intro x hx
      simp only [List.mem_append, List.mem_singleton] at hx
      rcases hx with hx | hx
      · exact hrs x hx
      · subst hx; exact hname
    have hq1 : DirAt c rooted segs (Join q name) (rs ++ [name.data]) :=
      Or.inr ⟨by simp, join_dirAt c rooted segs hc hst q rs hrs hq name hname⟩
    simp only [visits, Option.isSome_none, Bool.false_eq_true, if_false, List.nil_append,
      List.map_cons, List.map_append, relPathsIn]
    rw [trim_join c rooted segs hc hst hroot q rs hrs hq name hname, relPre_append_name,
      ihs hwsub hrsub (Join q name) (rs ++ [name.data]) hrs1 hq1,
      ihr hwrest hrrest q rs hrs hq, relPre_snoc, relPre_append_name]

theorem TrimPrefix_self (s : String) : TrimPrefix s s = "" := by
  unfold TrimPrefix
  rw [trimChars_self]

/-- The candidate paths of the inner walk are the relative paths of the entries
of the subtree, unless the directory of the OWNERS file is the root `/`. -/
theorem checkPaths_eq_relPaths (path : String) (parent : Directory) (hroot : Dir path ≠ "/")
    (hwf : parent.wellFormed) : checkPaths (Dir path ++ "/") parent = relPaths parent := by
  obtain ⟨rooted, segs, hc, hst⟩ := cleanChars_form (dirChars path.data)
  have hc1 : (Dir path).data = render rooted segs := by
    simpa [Dir, Clean] using hc
  have hnot : ¬ (rooted = true ∧ segs = []) := by
    rintro ⟨h1, h2⟩
    apply hroot
    apply String.ext
    rw [hc1, h1, h2]
    rfl
  obtain ⟨herr, hread, hnamed⟩ := hwf
  simp only [checkPaths, rootVisits, herr, Option.isSome_none, Bool.false_eq_true, if_false,
    List.nil_append, List.map_cons, relPaths, TrimPrefix_self]
  rw [visits_trim (Dir path) rooted segs hc1 hst hnot parent.entries hnamed hread
    (Dir path ++ "/") [] (by simp) (Or.inl ⟨rfl, rfl⟩)]
  rfl

/-! ## The failure a run reports -/

@[simp] theorem Res.failure_ok {σ : Type} (s : σ) : (Res.ok s).failure = none := rfl
@[simp] theorem Res.failure_error {σ : Type} (s : σ) (e : Err) :
    (Res.error s e).failure = some (.error e) := rfl
@[simp] theorem Res.failure_panic {σ : Type} (s : σ) (p : CompilePanic) :
    (Res.panic s p).failure = some (.panic p) := rfl

theorem rangeFilters_failure (src : Source) (compile : Compile) (path : String)
    (parent : Directory) (fs : List String) :
    ∀ log : Log, (rangeFilters src compile path parent fs log).failure
      = (fs.find? fun e => !filterPasses src compile path parent e).map (failureOf compile) := by
  induction fs with
  | nil => intro log; rfl
  | cons e rest ih =>
    intro log
    cases hp : filterPasses src compile path parent e with
    | true =>
      rw [rangeFilters_pass src compile path parent e rest log hp, ih]
      simp [List.find?, hp]
    | false =>
      have he : e ≠ ".*" := by
        intro h
        simp [filterPasses, h] at hp
      simp only [List.find?, hp, Bool.not_false, Option.map_some']
      cases hc : compile e with
      | error cause =>
        rw [rangeFilters_panic src compile path parent e rest log cause he hc]
        simp [failureOf, hc]
      | ok re =>
        have hm : matchingFiles src re path parent e = [] := by
          simpa [filterPasses, he, hc] using hp
        rw [rangeFilters_noMatch src compile path parent e rest log re he hc hm]
        simp [failureOf, hc]

theorem find?_perm_of_unique {α : Type} (p : α → Bool) (l l' : List α) (h : l.Perm l')
    (hu : ∀ a ∈ l, ∀ b ∈ l, p a = true → p b = true → a = b) : l.find? p = l'.find? p := by
  cases h1 : l.find? p with
  | none =>
    rw [List.find?_eq_none] at h1
    symm
    rw [List.find?_eq_none]
    exact fun x hx => h1 x (h.mem_iff.mpr hx)
  | some a =>
    have ha : a ∈ l := List.mem_of_find?_eq_some h1
    have hpa : p a = true := List.find?_some h1
    cases h2 : l'.find? p with
    | none =>
      rw [List.find?_eq_none] at h2
      exact absurd hpa (h2 a (h.mem_iff.mp ha))
    | some b =>
      have hb : b ∈ l := h.mem_iff.mpr (List.mem_of_find?_eq_some h2)
      have hpb : p b = true := List.find?_some h2
      rw [hu a ha b hb hpa hpb]

theorem validateFile_failure_reordered (src : Source) (compile : Compile) (f f' : OwnersFile)
    (h : Alike FileData.Reordered f f') (hu : OneFailing src compile f) (log log' : Log) :
    (validateFile src compile f log).failure = (validateFile src compile f' log').failure := by
  obtain ⟨path, d, parent⟩ := f
  obtain ⟨path', d', parent'⟩ := f'
  obtain ⟨hp, hd, hv⟩ := h
  simp only at hp hd hv
  subst hp
  unfold validateFile checkOwnersFile
  simp only
  cases hd with
  | same d =>
    cases d with
    | unreadable c => rfl
    | malformed c => rfl
    | noDocument => rfl
    | owners fs =>
      simp only [rangeFilters_failure]
      have : (fun e => !filterPasses src compile path parent e)
          = fun e => !filterPasses src compile path parent' e := by
        funext e
        rw [filterPasses_congr src compile path parent parent' hv]
      rw [this]
  | @keys a b hperm =>
    simp only [rangeFilters_failure]
    have : (fun e => !filterPasses src compile path parent' e)
        = fun e => !filterPasses src compile path parent e := by
      funext e
      rw [filterPasses_congr src compile path parent parent' hv]
    rw [this]
    congr 1
    apply find?_perm_of_unique _ a b hperm
    intro x hx y hy hpx hpy
    exact hu a rfl x hx y hy (by simpa using hpx) (by simpa using hpy)

theorem Res.failure_andThen {σ : Type} (r : Res σ) (k : σ → Res σ) (h : r.isOk = false) :
    (r.andThen k).failure = r.failure := by
  cases r with
  | ok s => simp at h
  | error s e => rfl
  | panic s p => rfl

theorem validateAll_failure_reordered (src : Source) (compile : Compile)
    (fs fs' : List OwnersFile) (h : List.Forall₂ (Alike FileData.Reordered) fs fs') :
    (∀ f ∈ fs, OneFailing src compile f) → ∀ log log' : Log,
      (validateAll src compile fs log).failure = (validateAll src compile fs' log').failure := by
  induction h with
  | nil => intro _ log log'; rfl
  | @cons f f' rest rest' hf _ ih =>
    intro hu log log'
    have hval := fileValidates_reordered src compile f f' hf
    simp only [validateAll]
    cases hv : fileValidates src compile f with
    | true =>
      rw [validateFile_of_validates src compile f log hv,
        validateFile_of_validates src compile f' log' (hval ▸ hv)]
      exact ih (fun g hg => hu g (by simp [hg])) _ _
    | false =>
      have h1 : (validateFile src compile f log).isOk = false := by
        rw [validateFile_isOk, hv]
      have h2 : (validateFile src compile f' log').isOk = false := by
        rw [validateFile_isOk, ← hval, hv]
      rw [Res.failure_andThen _ _ h1, Res.failure_andThen _ _ h2]
      exact validateFile_failure_reordered src compile f f' hf (hu f (by simp)) log log'

theorem fatalError_eq (src : Source) (compile : Compile) (directory : String) (root : Directory)
    (hdir : directory ≠ "") :
    (checkFilters src compile directory (.isDir root)).fatalError
      = match (validateAll src compile (discovered directory root) []).failure with
        | some (.error e) => some (.failedToCheckOwners e)
        | _ => none := by
  rw [checkFilters_eq src compile directory root hdir]
  cases validateAll src compile (discovered directory root) [] <;> rfl

theorem panicValue_eq (src : Source) (compile : Compile) (directory : String) (root : Directory)
    (hdir : directory ≠ "") :
    (checkFilters src compile directory (.isDir root)).panicValue
      = match (validateAll src compile (discovered directory root) []).failure with
        | some (.panic p) => some p
        | _ => none := by
  rw [checkFilters_eq src compile directory root hdir]
  cases validateAll src compile (discovered directory root) [] <;> rfl

/-! ## Claims -/

/-- C1 (as amended). For every discovered OWNERS file and every filter expression
of it that is not the sentinel, compiles, and matches none of the candidate
paths of the inner walk: the run does not succeed; and when every OWNERS file
discovered before it validates and every expression iterated before it passes,
the run ends in `Fatal` with the error `no files matched filter` naming that
exact expression. The error carries the expression only, not the path of the
OWNERS file. -/
theorem noMatch_fails_naming_expression (src : Source) (compile : Compile) (directory : String)
    (root : Directory) (hdir : directory ≠ "") (pre post : List OwnersFile) (f : OwnersFile)
    (hdisc : discovered directory root = pre ++ f :: post) (fpre fpost : List String)
    (e : String) (hd : f.data = .owners (fpre ++ e :: fpost)) (hs : e ≠ ".*") (re : Regexp)
    (hc : compile e = .ok re)
    (hnone : ∀ checkPath ∈ checkPaths (Dir f.path ++ "/") f.parent, re checkPath = false) :
    (checkFilters src compile directory (.isDir root)).isSuccess = false ∧
    (pre.all (fileValidates src compile) = true →
      fpre.all (filterPasses src compile f.path f.parent) = true →
      checkFilters src compile directory (.isDir root)
        = .fatal
            (pre.flatMap (fileLog src compile) ++
              (⟨.debug, [("file", f.path)], .checkingOwnersFile⟩ ::
                (fpre.flatMap (filterLog src compile f.path f.parent) ++
                  checkLog src f.path f.parent e)))
            (.failedToCheckOwners (.noMatch e))) := by
  have hm : matchingFiles src re f.path f.parent e = [] :=
    (matchingFiles_nil_iff src re f.path f.parent e).mpr hnone
  have hp : filterPasses src compile f.path f.parent e = false := by
    simp [filterPasses, hs, hc, hm]
  refine ⟨?_, ?_⟩
  · apply isSuccess_false_of_file src compile directory root hdir f
    · rw [hdisc]; simp
    · exact validates_false_of_filter src compile f _ hd e (by simp) hp
  · intro hpre hfpre
    rw [checkFilters_eq src compile directory root hdir, hdisc,
      validateAll_pass_append src compile pre _ [] hpre]
    simp only [validateAll, validateFile, checkOwnersFile, hd]
    rw [rangeFilters_pass_append src compile f.path f.parent fpre _ _ hfpre,
      rangeFilters_noMatch src compile f.path f.parent e fpost _ re hs hc hm]
    simp [List.append_assoc]

/-- Witness for C1: `repo/OWNERS` declares `a/.*.go` and `repo/a` is empty. -/
theorem noMatch_fails_naming_expression_witness :
    (checkFilters .pkg sampleCompile "repo" (.isDir emptyDirTree)).isSuccess = false ∧
    checkFilters .pkg sampleCompile "repo" (.isDir emptyDirTree)
      = .fatal
          ([] ++ (⟨.debug, [("file", "repo/OWNERS")], .checkingOwnersFile⟩ ::
            ([] ++ checkLog .pkg "repo/OWNERS" emptyDirTree "a/.*.go")))
          (.failedToCheckOwners (.noMatch "a/.*.go")) :=
  have h := noMatch_fails_naming_expression .pkg sampleCompile "repo" emptyDirTree (by decide)
    [] [] ⟨"repo/OWNERS", .owners ["a/.*.go"], emptyDirTree⟩ (by decide) [] [] "a/.*.go" rfl
    (by decide) (sampleRegexp "a/.*.go") rfl (by decide)
  ⟨h.1, h.2 rfl rfl⟩

/-- Counterexample to C1 as stated: the same filter `zzz` fails once in
`repo/a/OWNERS` and once in `repo/b/OWNERS`, and the two runs report the same
error, which therefore does not identify the OWNERS file; and of two
expressions that match nothing only the first is reported. -/
theorem noMatch_error_omits_file :
    (discovered "repo" failsInA).map (fun f => f.path) = ["repo/a/OWNERS"] ∧
    (discovered "repo" failsInB).map (fun f => f.path) = ["repo/b/OWNERS"] ∧
    (checkFilters .pkg sampleCompile "repo" (.isDir failsInA)).fatalError
      = some (.failedToCheckOwners (.noMatch "zzz")) ∧
    (checkFilters .pkg sampleCompile "repo" (.isDir failsInB)).fatalError
      = some (.failedToCheckOwners (.noMatch "zzz")) ∧
    (checkFilters .pkg sampleCompile "repo" (.isDir twoFailing)).fatalError
      = some (.failedToCheckOwners (.noMatch "yyy")) := by
  decide

/-- C2 (as amended). For every discovered OWNERS file and every filter expression
of it that is not the sentinel and does not compile: the run does not succeed;
and when every OWNERS file discovered before it validates and every expression
iterated before it passes, the run ends in the panic of `regexp.MustCompile`,
whose value names that exact expression and the cause (not the path of the
OWNERS file). It is not an error returned through the walk. -/
theorem invalid_expression_panics (src : Source) (compile : Compile) (directory : String)
    (root : Directory) (hdir : directory ≠ "") (pre post : List OwnersFile) (f : OwnersFile)
    (hdisc : discovered directory root = pre ++ f :: post) (fpre fpost : List String)
    (e : String) (hd : f.data = .owners (fpre ++ e :: fpost)) (hs : e ≠ ".*") (cause : String)
    (hc : compile e = .error cause) :
    (checkFilters src compile directory (.isDir root)).isSuccess = false ∧
    (pre.all (fileValidates src compile) = true →
      fpre.all (filterPasses src compile f.path f.parent) = true →
      checkFilters src compile directory (.isDir root)
        = .panic
            (pre.flatMap (fileLog src compile) ++
              (⟨.debug, [("file", f.path)], .checkingOwnersFile⟩ ::
                fpre.flatMap (filterLog src compile f.path f.parent)))
            ⟨e, cause⟩) := by
  have hp : filterPasses src compile f.path f.parent e = false := by
    simp [filterPasses, hs, hc]
  refine ⟨?_, ?_⟩
  · apply isSuccess_false_of_file src compile directory root hdir f
    · rw [hdisc]; simp
    · exact validates_false_of_filter src compile f _ hd e (by simp) hp
  · intro hpre hfpre
    rw [checkFilters_eq src compile directory root hdir, hdisc,
      validateAll_pass_append src compile pre _ [] hpre]
    simp only [validateAll, validateFile, checkOwnersFile, hd]
    rw [rangeFilters_pass_append src compile f.path f.parent fpre _ _ hfpre,
      rangeFilters_panic src compile f.path f.parent e fpost _ cause hs hc]
    simp [List.append_assoc]

/-- Witness for C2: `repo/OWNERS` declares `(unclosed`. -/
theorem invalid_expression_panics_witness :
    (checkFilters .pkg sampleCompile "repo" (.isDir unclosedTree)).isSuccess = false ∧
    checkFilters .pkg sampleCompile "repo" (.isDir unclosedTree)
      = .panic ([] ++ (⟨.debug, [("file", "repo/OWNERS")], .checkingOwnersFile⟩ :: []))
          ⟨"(unclosed", "missing closing )"⟩ :=
  have h := invalid_expression_panics .pkg sampleCompile "repo" unclosedTree (by decide)
    [] [] ⟨"repo/OWNERS", .owners ["(unclosed"], unclosedTree⟩ (by decide) [] [] "(unclosed" rfl
    (by decide) "missing closing )" rfl
  ⟨h.1, h.2 rfl rfl⟩

/-- Counterexample to C2 as stated: with the filter `(unclosed` the run ends in
a panic; no error value is returned through the walk to the call of `Fatal`. -/
theorem invalid_expression_is_no_error_value :
    (checkFilters .pkg sampleCompile "repo" (.isDir unclosedTree)).fatalError = none ∧
    (checkFilters .pkg sampleCompile "repo" (.isDir unclosedTree)).panicValue
      = some ⟨"(unclosed", "missing closing )"⟩ ∧
    (checkFilters .cmd sampleCompile "repo" (.isDir unclosedTree)).fatalError = none ∧
    (checkFilters .cmd sampleCompile "repo" (.isDir unclosedTree)).panicValue
      = some ⟨"(unclosed", "missing closing )"⟩ := by
  decide

theorem fileData_reordered_refl (d : FileData) : FileData.Reordered d d := .same d

theorem entries_reordered_refl (es : Entries) : es.Reordered es := by
  induction es with
  | nil => exact .nil
  | file name data rest ih => exact .file (.same data) ih
  | dir name readErr sub rest ihs ihr => exact .dir ihs ihr

theorem directory_reordered_refl (d : Directory) : d.Reordered d :=
  ⟨rfl, entries_reordered_refl d.entries⟩

theorem isSuccess_reordered (src : Source) (compile : Compile) (directory : String)
    (root root' : Directory) (hdir : directory ≠ "") (h : root.Reordered root') :
    (checkFilters src compile directory (.isDir root)).isSuccess
      = (checkFilters src compile directory (.isDir root')).isSuccess := by
  rw [checkFilters_isSuccess src compile directory root hdir,
    checkFilters_isSuccess src compile directory root' hdir]
  exact all_validate_reordered src compile _ _ (discovered_reordered directory h)

theorem fileValidates_iff_matchSets (src : Source) (compile : Compile) (f : OwnersFile)
    (hdecode : f.data = .noDocument ∨ ∃ filters, f.data = .owners filters)
    (hcompile : ∀ filters, f.data = .owners filters → ∀ e ∈ filters, e ≠ ".*" →
      ∃ re, compile e = .ok re) :
    fileValidates src compile f = true ↔
      ∀ filters, f.data = .owners filters → ∀ e ∈ filters, e ≠ ".*" →
        ∀ re, compile e = .ok re → matchingFiles src re f.path f.parent e ≠ [] := by
  unfold fileValidates
  rcases hdecode with hd | ⟨filters, hd⟩
  · simp [hd]
  · rw [hd]
    simp only [List.all_eq_true, FileData.owners.injEq, forall_eq']
    constructor
    · intro h e he hs re hc
      have := h e he
      simpa [filterPasses, hs, hc] using this
    · intro h e he
      by_cases hs : e = ".*"
      · simp [filterPasses, hs]
      · obtain ⟨re, hc⟩ := hcompile filters hd e he hs
        have := h e he hs re hc
        simp [filterPasses, hs, hc, this]

/-- C3. In a tree in which every discovered OWNERS file is read and decoded and
every filter expression other than the sentinel compiles, the run succeeds if
and only if every such expression of every discovered OWNERS file has a
non-empty MatchSet, whatever order the filter mappings are iterated in; in
particular it succeeds when no OWNERS file is discovered, and when every
discovered OWNERS file has no document or an empty filter mapping. -/
theorem success_iff_matchSets_nonempty (src : Source) (compile : Compile) (directory : String)
    (root : Directory) (hdir : directory ≠ "")
    (hdecode : ∀ f ∈ discovered directory root,
      f.data = .noDocument ∨ ∃ filters, f.data = .owners filters)
    (hcompile : ∀ f ∈ discovered directory root, ∀ filters, f.data = .owners filters →
      ∀ e ∈ filters, e ≠ ".*" → ∃ re, compile e = .ok re) :
    (∀ root' : Directory, root.Reordered root' →
      ((checkFilters src compile directory (.isDir root')).isSuccess = true ↔
        ∀ f ∈ discovered directory root, ∀ filters, f.data = .owners filters →
          ∀ e ∈ filters, e ≠ ".*" → ∀ re, compile e = .ok re →
            matchingFiles src re f.path f.parent e ≠ [])) ∧
    (discovered directory root = [] →
      (checkFilters src compile directory (.isDir root)).isSuccess = true) ∧
    ((∀ f ∈ discovered directory root, f.data = .noDocument ∨ f.data = .owners []) →
      (checkFilters src compile directory (.isDir root)).isSuccess = true) := by
  have key : (checkFilters src compile directory (.isDir root)).isSuccess = true ↔
      ∀ f ∈ discovered directory root, ∀ filters, f.data = .owners filters →
        ∀ e ∈ filters, e ≠ ".*" → ∀ re, compile e = .ok re →
          matchingFiles src re f.path f.parent e ≠ [] := by
    rw [checkFilters_isSuccess src compile directory root hdir, List.all_eq_true]
    constructor
    · intro h f hf
      exact (fileValidates_iff_matchSets src compile f (hdecode f hf) (hcompile f hf)).mp (h f hf)
    · intro h f hf
      exact (fileValidates_iff_matchSets src compile f (hdecode f hf) (hcompile f hf)).mpr (h f hf)
  refine ⟨?_, ?_, ?_⟩
  · intro root' hr
    rw [← isSuccess_reordered src compile directory root root' hdir hr]
    exact key
  · intro hnil
    rw [key, hnil]
    simp
  · intro hall
    rw [key]
    intro f hf filters hd e he
    rcases hall f hf with h | h
    · rw [h] at hd; cases hd
    · rw [h] at hd
      cases hd
      simp at he

theorem discovered_goTree :
    discovered "repo" goTree = [⟨"repo/OWNERS", .owners ["a/.*.go"], goTree⟩] := by
  decide

/-- Witness for C3: the tree of the scenario, `repo/OWNERS` with the filter
`a/.*.go` and `repo/a/x.go`; the run succeeds. -/
theorem success_iff_matchSets_nonempty_witness :
    (checkFilters .pkg sampleCompile "repo" (.isDir goTree)).isSuccess = true ∧
    (∀ f ∈ discovered "repo" goTree, ∀ filters, f.data = .owners filters →
      ∀ e ∈ filters, e ≠ ".*" → ∀ re, sampleCompile e = .ok re →
        matchingFiles .pkg re f.path f.parent e ≠ []) :=
  have h := success_iff_matchSets_nonempty .pkg sampleCompile "repo" goTree (by decide)
    (by
      intro f hf
      rw [discovered_goTree, List.mem_singleton] at hf
      subst hf
      exact Or.inr ⟨_, rfl⟩)
    (by
      intro f hf filters hd e he _
      rw [discovered_goTree, List.mem_singleton] at hf
      subst hf
      cases hd
      rw [List.mem_singleton] at he
      subst he
      exact ⟨sampleRegexp "a/.*.go", rfl⟩)
  ⟨by decide, (h.1 goTree (directory_reordered_refl goTree)).mp (by decide)⟩

theorem rangeFilters_skip_sentinel (src : Source) (compile : Compile) (path : String)
    (parent : Directory) (pre post : List String) :
    ∀ log : Log, rangeFilters src compile path parent (pre ++ ".*" :: post) log
      = rangeFilters src compile path parent (pre ++ post) log := by
  induction pre with
  | nil => intro log; exact rangeFilters_sentinel src compile path parent post log
  | cons e more ih =>
    intro log
    show rangeFilters src compile path parent (e :: (more ++ ".*" :: post)) log
      = rangeFilters src compile path parent (e :: (more ++ post)) log
    simp only [rangeFilters, ih]

theorem rangeFilters_all_sentinel (src : Source) (compile : Compile) (path : String)
    (parent : Directory) (filters : List String) (hs : ∀ e ∈ filters, e = ".*") (log : Log) :
    rangeFilters src compile path parent filters log = .ok log := by
  induction filters with
  | nil => rfl
  | cons e rest ih =>
    have he : e = ".*" := hs e (by simp)
    subst he
    rw [rangeFilters_sentinel]
    exact ih fun x hx => hs x (by simp [hx])

/-- C6. An OWNERS file whose filter mapping holds nothing but the sentinel
validates: the walk function returns nil after the one record `checking OWNERS
file`, whatever `compile` does and whatever the directory of the file holds, so
without a record `check match` of an inner walk. In any filter mapping the
sentinel is passed over: the loop does what it does without it. -/
theorem sentinel_is_skipped (src : Source) (compile : Compile) (path : String) (loc : Located)
    (err : Option String) (log : Log) (filters : List String)
    (hv : Contains path "/vendor/" = false) (hd : loc.data = .owners filters)
    (hs : ∀ e ∈ filters, e = ".*") :
    ownersFn src compile path ⟨"OWNERS", false⟩ loc err log
      = .ok (log ++ [⟨.debug, [("file", path)], .checkingOwnersFile⟩]) ∧
    (∀ (pre post : List String) (log1 : Log),
      rangeFilters src compile path loc.parent (pre ++ ".*" :: post) log1
        = rangeFilters src compile path loc.parent (pre ++ post) log1) := by
  refine ⟨?_, fun pre post log1 => rangeFilters_skip_sentinel src compile path loc.parent pre post log1⟩
  simp only [ownersFn, hv, checkOwnersFile, hd]
  simp [rangeFilters_all_sentinel src compile path loc.parent filters hs]

/-- Witness for C6: `repo/OWNERS` declares only the sentinel in an otherwise
empty directory, and the regular-expression library fails on every input. -/
theorem sentinel_is_skipped_witness :
    ownersFn .pkg (fun _ => .error "never called") "repo/OWNERS" ⟨"OWNERS", false⟩
        ⟨.owners [".*"], ⟨none, .file "OWNERS" (.owners [".*"]) .nil⟩⟩ none []
      = .ok ([] ++ [⟨.debug, [("file", "repo/OWNERS")], .checkingOwnersFile⟩]) :=
  (sentinel_is_skipped .pkg (fun _ => .error "never called") "repo/OWNERS"
    ⟨.owners [".*"], ⟨none, .file "OWNERS" (.owners [".*"]) .nil⟩⟩ none [] [".*"]
    (by decide) rfl (by decide)).1

/-- C7 (as amended). A file named `OWNERS` whose walk path contains `/vendor/` is
not evaluated: the walk function returns nil at once, and the run is the same
whatever such files contain. -/
theorem vendor_owners_content_is_ignored (src : Source) (compile : Compile) (directory : String)
    (root : Directory) (new : String → FileData) :
    checkFilters src compile directory
        (.isDir ⟨root.readErr, overwriteVendor new directory root.entries⟩)
      = checkFilters src compile directory (.isDir root) ∧
    (∀ (path : String) (d : DirEntry) (loc : Located) (err : Option String) (log : Log),
      Contains path "/vendor/" = true → ownersFn src compile path d loc err log = .ok log) := by
  constructor
  · simp only [checkFilters, WalkDir_ownersFn, discovered]
    have hsame : root.SameVisits ⟨root.readErr, overwriteVendor new directory root.entries⟩ := by
      intro r
      simp only [rootVisits, visits_overwriteVendor]
    rw [validateAll_congr src compile _ _
      (ownersIn_overwriteVendor new root.entries directory root _ hsame) []]
  · intro path d loc err log hv
    simp [ownersFn, hv]

/-- Counterexample to C7 as stated: run on the directory `vendor`, the file
`vendor/OWNERS` is evaluated (its filter fails the run, which succeeds without
the file); and `repo/vendor/OWNERS`, though not evaluated, is the one match of
the filter `vendor/OWNERS` of `repo/OWNERS`, so the run succeeds with the file
and fails without it. -/
theorem vendor_owners_still_counts :
    (checkFilters .pkg sampleCompile "vendor" (.isDir vendorRoot)).fatalError
      = some (.failedToCheckOwners (.noMatch "zzz")) ∧
    (checkFilters .pkg sampleCompile "vendor" (.isDir emptyRoot)).isSuccess = true ∧
    (checkFilters .pkg sampleCompile "repo" (.isDir vendoredOwners)).isSuccess = true ∧
    (checkFilters .pkg sampleCompile "repo" (.isDir vendoredOwnersRemoved)).fatalError
      = some (.failedToCheckOwners (.noMatch "vendor/OWNERS")) := by
  decide

theorem checkFilters_log_of_success (src : Source) (compile : Compile) (directory : String)
    (root : Directory)
    (h : (checkFilters src compile directory (.isDir root)).isSuccess = true) :
    (checkFilters src compile directory (.isDir root)).log
      = (discovered directory root).flatMap (fileLog src compile) := by
  by_cases hdir : directory = ""
  · simp [checkFilters, hdir, Outcome.isSuccess] at h
  · rw [checkFilters_isSuccess src compile directory root hdir] at h
    rw [checkFilters_of_validates src compile directory root hdir h]
    rfl

/-- C10 (as amended). Two runs on the same tree that iterate the filter mappings
in different orders both succeed or both fail. When they succeed they write the
same log records, so report the same MatchSets, in an order that follows the
iteration. When they fail they report the same error or panic provided no
OWNERS file has more than one filter expression that does not pass; otherwise
each run reports the expression it comes to first. -/
theorem reordered_runs_agree (src : Source) (compile : Compile) (directory : String)
    (root root' : Directory) (h : root.Reordered root') :
    (checkFilters src compile directory (.isDir root)).isSuccess
      = (checkFilters src compile directory (.isDir root')).isSuccess ∧
    ((checkFilters src compile directory (.isDir root)).isSuccess = true →
      (checkFilters src compile directory (.isDir root)).log.Perm
        (checkFilters src compile directory (.isDir root')).log ∧
      (reported (checkFilters src compile directory (.isDir root)).log).Perm
        (reported (checkFilters src compile directory (.isDir root')).log)) ∧
    ((∀ f ∈ discovered directory root, OneFailing src compile f) →
      (checkFilters src compile directory (.isDir root)).fatalError
        = (checkFilters src compile directory (.isDir root')).fatalError ∧
      (checkFilters src compile directory (.isDir root)).panicValue
        = (checkFilters src compile directory (.isDir root')).panicValue) := by
  by_cases hdir : directory = ""
  · simp [checkFilters, hdir, Outcome.isSuccess]
  · have hs := isSuccess_reordered src compile directory root root' hdir h
    refine ⟨hs, fun hok => ?_, fun hone => ?_⟩
    · have hperm : (checkFilters src compile directory (.isDir root)).log.Perm
          (checkFilters src compile directory (.isDir root')).log := by
        rw [checkFilters_log_of_success src compile directory root hok,
          checkFilters_log_of_success src compile directory root' (hs ▸ hok)]
        exact fileLogs_reordered src compile _ _ (discovered_reordered directory h)
      exact ⟨hperm, hperm.filter _⟩
    · have hf := validateAll_failure_reordered src compile _ _
        (discovered_reordered directory h) hone [] []
      rw [fatalError_eq src compile directory root hdir,
        fatalError_eq src compile directory root' hdir,
        panicValue_eq src compile directory root hdir,
        panicValue_eq src compile directory root' hdir, hf]
      exact ⟨rfl, rfl⟩

theorem twoPassing_reordered : twoPassing.Reordered twoPassingSwapped :=
  ⟨rfl, .file (.keys (List.Perm.swap _ _ _)) (entries_reordered_refl _)⟩

/-- Witness for C10: `repo/OWNERS` with the filters `a` and `x`, iterated in the
two possible orders; both runs succeed and report the MatchSets of both. -/
theorem reordered_runs_agree_witness :
    (checkFilters .pkg sampleCompile "repo" (.isDir twoPassing)).isSuccess
      = (checkFilters .pkg sampleCompile "repo" (.isDir twoPassingSwapped)).isSuccess ∧
    (reported (checkFilters .pkg sampleCompile "repo" (.isDir twoPassing)).log).Perm
      (reported (checkFilters .pkg sampleCompile "repo" (.isDir twoPassingSwapped)).log) :=
  have h := reordered_runs_agree .pkg sampleCompile "repo" twoPassing twoPassingSwapped
    twoPassing_reordered
  ⟨h.1, (h.2.1 (by decide)).2⟩

theorem twoFailing_reordered : twoFailing.Reordered twoFailingSwapped :=
  ⟨rfl, .file (.keys (List.Perm.swap _ _ _)) .nil⟩

/-- Counterexample to C10 as stated: the OWNERS file declares `yyy` and `zzz`,
neither of which matches; the run that iterates `yyy` first reports `yyy`, the
run that iterates `zzz` first reports `zzz`; and two successful runs write their
records `files matched` in different orders. -/
theorem reordered_runs_differ :
    twoFailing.Reordered twoFailingSwapped ∧
    (checkFilters .pkg sampleCompile "repo" (.isDir twoFailing)).fatalError
      = some (.failedToCheckOwners (.noMatch "yyy")) ∧
    (checkFilters .pkg sampleCompile "repo" (.isDir twoFailingSwapped)).fatalError
      = some (.failedToCheckOwners (.noMatch "zzz")) ∧
    twoPassing.Reordered twoPassingSwapped ∧
    reported (checkFilters .pkg sampleCompile "repo" (.isDir twoPassing)).log
      ≠ reported (checkFilters .pkg sampleCompile "repo" (.isDir twoPassingSwapped)).log :=
  ⟨twoFailing_reordered, by decide, by decide, twoPassing_reordered, by decide⟩

/-- C8 (as amended). The inner walk leaves nothing out: for an OWNERS file whose
directory is not the root `/`, in a subtree that is read without error, the
MatchSet of a filter expression is the list of the relative paths of all
entries of the subtree that the expression matches, the paths below a directory
named `vendor` among them. The exclusion of `/vendor/` applies to the discovery
of OWNERS files only. -/
theorem matchSet_is_unpruned (src : Source) (re : Regexp) (path : String) (parent : Directory)
    (e : String) (hroot : Dir path ≠ "/") (hwf : parent.wellFormed) :
    matchingFiles src re path parent e = (relPaths parent).filter re ∧
    (∀ r ∈ relPaths parent, re r = true → r ∈ matchingFiles src re path parent e) := by
  have h : matchingFiles src re path parent e = (relPaths parent).filter re := by
    rw [matchingFiles_eq, checkPaths_eq_relPaths path parent hroot hwf]
  refine ⟨h, fun r hr hm => ?_⟩
  rw [h, List.mem_filter]
  exact ⟨hr, hm⟩

theorem vendoredLib_wellFormed : vendoredLib.wellFormed := by
  refine ⟨rfl, ?_, ?_⟩
  · simp [vendoredLib, Entries.readable]
  · simp only [vendoredLib, Entries.wellNamed, and_true]
    decide

/-- Witness for C8: the MatchSet of the filter `lib` of `repo/OWNERS` holds
`vendor/lib.go`. -/
theorem matchSet_is_unpruned_witness :
    matchingFiles .pkg (sampleRegexp "lib") "repo/OWNERS" vendoredLib "lib"
      = (relPaths vendoredLib).filter (sampleRegexp "lib") ∧
    "vendor/lib.go" ∈ matchingFiles .pkg (sampleRegexp "lib") "repo/OWNERS" vendoredLib "lib" :=
  have h := matchSet_is_unpruned .pkg (sampleRegexp "lib") "repo/OWNERS" vendoredLib "lib"
    (by decide) vendoredLib_wellFormed
  ⟨h.1, h.2 "vendor/lib.go" (by decide) (by decide)⟩

/-- Counterexample to C8 as stated: the MatchSet of the filter `lib` is the one
path `vendor/lib.go`, below a directory named `vendor`; the run succeeds with
that entry and fails without it. -/
theorem vendored_path_lets_filter_pass :
    matchingFiles .pkg (sampleRegexp "lib") "repo/OWNERS" vendoredLib "lib" = ["vendor/lib.go"] ∧
    (checkFilters .pkg sampleCompile "repo" (.isDir vendoredLib)).isSuccess = true ∧
    (checkFilters .pkg sampleCompile "repo" (.isDir vendoredLibRemoved)).fatalError
      = some (.failedToCheckOwners (.noMatch "lib")) := by
  decide

/-- C4 (the code at the failing inputs). Run on the root directory `/`, the
inner walk for `/OWNERS` starts at `//`, which is no leading part of the paths
`/a`, `/a/x.go` it visits: the MatchSet holds `/a/x.go`, not the relative path
`a/x.go` it holds when the same tree is `repo`, and the filter `^a/` matches
nothing. A directory that cannot be read is visited twice and is twice in the
MatchSet. -/
theorem matchSet_below_root_is_not_relative :
    relPaths goTree = ["", "OWNERS", "a", "a/x.go"] ∧
    matchingFiles .pkg (sampleRegexp "a/.*.go") "repo/OWNERS" goTree "a/.*.go" = ["a/x.go"] ∧
    (discovered "/" goTree).map (fun f => f.path) = ["/OWNERS"] ∧
    checkPaths (Dir "/OWNERS" ++ "/") goTree = ["", "/OWNERS", "/a", "/a/x.go"] ∧
    matchingFiles .pkg (sampleRegexp "a/.*.go") "/OWNERS" goTree "a/.*.go" = ["/a/x.go"] ∧
    (checkFilters .pkg sampleCompile "repo" (.isDir anchoredTree)).isSuccess = true ∧
    (checkFilters .pkg sampleCompile "/" (.isDir anchoredTree)).fatalError
      = some (.failedToCheckOwners (.noMatch "^a/")) ∧
    relPaths unreadableMatch = ["", "OWNERS", "a"] ∧
    matchingFiles .pkg (sampleRegexp "a") "repo/OWNERS" unreadableMatch "a" = ["a", "a"] := by
  decide

/-- C5 (the code at the failing input). The OWNERS file of `repo` declares `^$`
and `sub`; the only entry of `repo` besides it is the empty directory `sub`. The
run succeeds: the MatchSet of `^$` is the empty path of the directory `repo`
itself, that of `sub` the directory `sub`. No entry that is not a directory
matches either expression. -/
theorem directory_match_lets_filter_pass :
    checkFilters .cmd sampleCompile "repo" (.isDir dirOnlyTree)
      = .success
          [⟨.debug, [("file", "repo/OWNERS")], .checkingOwnersFile⟩,
           ⟨.debug, [("checkPath", ""), ("regex", "^$")], .checkMatch⟩,
           ⟨.debug, [("checkPath", "OWNERS"), ("regex", "^$")], .checkMatch⟩,
           ⟨.debug, [("checkPath", "sub"), ("regex", "^$")], .checkMatch⟩,
           ⟨.info, [("filter", "^$")], .filesMatched [""]⟩,
           ⟨.debug, [("checkPath", ""), ("regex", "sub")], .checkMatch⟩,
           ⟨.debug, [("checkPath", "OWNERS"), ("regex", "sub")], .checkMatch⟩,
           ⟨.debug, [("checkPath", "sub"), ("regex", "sub")], .checkMatch⟩,
           ⟨.info, [("filter", "sub")], .filesMatched ["sub"]⟩] ∧
    (checkFilters .pkg sampleCompile "repo" (.isDir dirOnlyTree)).isSuccess = true ∧
    relFilesIn "" dirOnlyTree.entries = ["OWNERS"] ∧
    sampleRegexp "^$" "OWNERS" = false ∧ sampleRegexp "sub" "OWNERS" = false := by
  decide

/-- C9 (the code at the failing inputs). A directory that cannot be read is
passed over: the run on `repo` with the unreadable `repo/secret` succeeds, and so
does the run on a root that cannot be read; with the unreadable `repo/a` the
filter `a/.*.go` ends the run with `no files matched filter`, not with an error
of the traversal. -/
theorem unreadable_directory_is_passed_over :
    checkFilters .pkg sampleCompile "repo" (.isDir unreadableSecret) = .success [] ∧
    checkFilters .cmd sampleCompile "repo" (.isDir unreadableSecret) = .success [] ∧
    checkFilters .pkg sampleCompile "repo" (.isDir unreadableRoot) = .success [] ∧
    (checkFilters .pkg sampleCompile "repo" (.isDir unreadableA)).fatalError
      = some (.failedToCheckOwners (.noMatch "a/.*.go")) ∧
    (checkFilters .cmd sampleCompile "repo" (.isDir unreadableA)).fatalError
      = some (.failedToCheckOwners (.noMatch "a/.*.go")) := by
  decide

end OwnersCheck
